import Mathlib

/-!
Verification of the Yuki workflow kernel: a shallow embedding of the job
status state machine (`Yuki/kernel/VJob.py`), the iterative DAG assembler and
dependency wait loop (`Yuki/kernel/VWorkflow.py`), the command compiler
(`Yuki/kernel/VContainer.py`), and the local backend status refresh and kill
operations (`Yuki/kernel/dry_workflow.py`, `Yuki/kernel/reana_workflow.py`,
`Yuki/kernel/impression_storage.py`), together with proofs of the documented
properties.
-/

namespace Yuki

/-! ### Job status state machine (`VJob._update_job_status`) -/

/-- `VJob._update_job_status`: given the current stored status, the observed
step status and the observed full workflow status, return the status value
stored afterwards (an unchanged value models the branches that perform no
write). -/
def updateJobStatus (current stepStatus fullWorkflowStatus : String) : String :=
  if current = "raw" then
    if stepStatus.length < 20 then stepStatus else current
  else if current = "running" then
    if stepStatus = "success" then "success"
    else if stepStatus = "finished" then "finished"
    else if stepStatus = "failed" ∨ stepStatus = "stopped" then "failed"
    else if fullWorkflowStatus = "failed" then "failed"
    else current
  else if current = "stopped" ∨ current = "deleted" then "failed"
  else if current = "finished" ∨ current = "success" ∨ current = "failed" then current
  else if stepStatus.length < 20 then stepStatus else "unknown"

/-- The job's `status.json` record: its `status` and `machine_id` variables. -/
structure StatusRecord where
  status : String
  machineId : Option String
deriving DecidableEq, Repr

/-- `VJob.update_status_from_workflow`: `jobType` is `job_type()`,
`selfMachine` is the object's `machine_id`, `workflowResults` is the status
read by `_read_workflow_results` (`none` when reading failed),
`matchedStep` is the status of the step matched by `_find_matched_step`
(`none` when no step matched).  Build jobs (`"algorithm"`) return before
touching the record; otherwise `machine_id` is written, terminal statuses
return early, and `_update_job_status` is applied. -/
def updateStatusFromWorkflow (jobType : String) (selfMachine : Option String)
    (workflowResults : Option String) (matchedStep : Option String)
    (sr : StatusRecord) : StatusRecord :=
  if jobType = "algorithm" then sr
  else if sr.status = "finished" ∨ sr.status = "success" ∨ sr.status = "failed" then
    { sr with machineId := selfMachine }
  else
    match workflowResults with
    | none => { sr with machineId := selfMachine }
    | some fullStatus =>
      { status :=
          updateJobStatus sr.status
            (match matchedStep with
              | some s => s
              | none => fullStatus)
            fullStatus
        machineId := selfMachine }

/-- Iterate `update_status_from_workflow` over a sequence of observations:
`inputs n` supplies (jobType, machineId, workflowResults, matchedStep) for the
n-th call. -/
def applyStatusUpdates
    (inputs : Nat → String × Option String × Option String × Option String) :
    Nat → StatusRecord → StatusRecord
  | 0, sr => sr
  | n + 1, sr =>
    let i := inputs n
    applyStatusUpdates inputs n (updateStatusFromWorkflow i.1 i.2.1 i.2.2.1 i.2.2.2 sr)

/-! ### Local backend status refresh (`DryWorkflow.update_workflow_status`) -/

/-- The `progress` part of the results record written by the local backend. -/
structure LocalProgress where
  total : Nat
  completed : Nat
deriving DecidableEq, Repr

/-- The results record written by `DryWorkflow.update_workflow_status`. -/
structure LocalResults where
  status : String
  progress : LocalProgress
deriving DecidableEq, Repr

/-- The job short ids recovered from the workflow manifest's step names
(`name[4:]` strips the `step` prefix). -/
def jobsFromSteps (stepNames : List String) : List String :=
  stepNames.map (fun n => n.drop 4)

/-- The all-done scan of `update_workflow_status`: walk the job list and stop
at the first job whose `.done` marker is missing. -/
def allDone (doneExists : String → Bool) : List String → Bool
  | [] => true
  | j :: rest => if doneExists j then allDone doneExists rest else false

/-- `DryWorkflow.update_workflow_status`: `stepNames` are the step names in
the workflow manifest and `doneExists j` tells whether the `<j>.done` marker
file exists in the local execution directory. -/
def updateWorkflowStatusLocal (stepNames : List String) (doneExists : String → Bool) :
    LocalResults :=
  { status :=
      if allDone doneExists (jobsFromSteps stepNames) then "finished" else "running"
    progress :=
      { total := (jobsFromSteps stepNames).length
        completed := (jobsFromSteps stepNames).countP (fun j => doneExists j) } }

/-! ### Kill (`ReanaWorkflow.kill`, `DryWorkflow.kill`, `ImpressionStorage.kill`) -/

/-- The state affected by kill operations: remote stop requests issued so
far, each workflow's `results.json` status, and each job's `status.json`
status (keyed by job path). -/
structure KillState where
  stopSignals : List String
  wfResults : String → String
  jobStatuses : String → String

/-- Writing one job's status variable. -/
def setJobStatus (p st : String) (m : String → String) : String → String :=
  fun q => if q = p then st else m q

/-- The view of a job needed by `DryWorkflow.kill`'s loop. -/
structure KillJob where
  path : String
  isInput : Bool
  jobType : String
deriving DecidableEq, Repr

/-- `ReanaWorkflow.kill`: calls `client.stop_workflow` for the workflow's
name (a remote stop signal) and nothing else. -/
def reanaWorkflowKill (wfName : String) (s : KillState) : KillState :=
  { s with stopSignals := wfName :: s.stopSignals }

/-- `DryWorkflow.kill`: sets the workflow's results status to `killed`, then
sets every non-input, non-algorithm job of `self.jobs` to `failed`.  A
workflow rehydrated from a stored UUID has `jobs = []`. -/
def dryWorkflowKill (uuid : String) (jobs : List KillJob) (s : KillState) : KillState :=
  let s1 : KillState :=
    { s with wfResults := fun u => if u = uuid then "killed" else s.wfResults u }
  jobs.foldl
    (fun acc j =>
      if j.isInput then acc
      else if j.jobType = "algorithm" then acc
      else { acc with jobStatuses := setJobStatus j.path "failed" acc.jobStatuses })
    s1

/-- The backend strategy selected for one runner. -/
inductive BackendMode where
  | reana : BackendMode
  | dry : BackendMode
deriving DecidableEq, Repr

/-- One runner context yielded by `ImpressionStorage._get_runner_contexts`. -/
structure RunnerCtx where
  machine : String
  wfUuid : String
  wfName : String
  mode : BackendMode
deriving DecidableEq, Repr

/-- One runner context's kill step, dispatched on the backend strategy
configured for the runner's machine.  A workflow rehydrated from its UUID
carries an empty job list. -/
def runnerKillStep (acc : KillState) (c : RunnerCtx) : KillState :=
  match c.mode with
  | BackendMode.reana => reanaWorkflowKill c.wfName acc
  | BackendMode.dry => dryWorkflowKill c.wfUuid [] acc

/-- `ImpressionStorage.kill`: kill every associated workflow (each rehydrated
with an empty job list), then mark the impression's own job record failed. -/
def impressionStorageKill (jobPath : String) (ctxs : List RunnerCtx)
    (s : KillState) : KillState :=
  let s1 := ctxs.foldl runnerKillStep s
  { s1 with jobStatuses := setJobStatus jobPath "failed" s1.jobStatuses }

/-! ### Dependency wait (`VWorkflow._wait_for_dependencies`) -/

/-- The view of a job needed by the wait loop. -/
structure WaitJob where
  path : String
  isInput : Bool
  jobType : String
deriving DecidableEq, Repr

/-- One pass of the wait loop's check over the job list at attempt `i`:
non-input jobs, already `archived`/`finished` jobs and algorithm jobs are
skipped, every other input job must read `finished`.  `statusAt i p` is the
content of job `p`'s status record as read during attempt `i`. -/
def allFinishedAt (jobs : List WaitJob) (statusAt : Nat → String → String)
    (i : Nat) : Bool :=
  jobs.all fun j =>
    if !j.isInput then true
    else if statusAt i j.path = "archived" then true
    else if statusAt i j.path = "finished" then true
    else if j.jobType = "algorithm" then true
    else decide (statusAt i j.path = "finished")

/-- The bounded retry loop of `_wait_for_dependencies`: starting at attempt
`i` with `remaining` attempts left, return whether some attempt observed all
dependencies finished. -/
def waitLoop (jobs : List WaitJob) (statusAt : Nat → String → String) :
    Nat → Nat → Bool
  | _, 0 => false
  | i, r + 1 =>
    if allFinishedAt jobs statusAt i then true else waitLoop jobs statusAt (i + 1) r

/-- `VWorkflow._wait_for_dependencies`: 60 attempts; on failure every
non-input, non-algorithm job is reset to `raw` (returned as the list of reset
job paths), on success nothing is reset. -/
def waitForDependencies (jobs : List WaitJob) (statusAt : Nat → String → String) :
    Bool × List String :=
  if waitLoop jobs statusAt 0 60 then (true, [])
  else
    (false, (jobs.filter (fun j => !j.isInput && !(j.jobType = "algorithm" : Bool))).map
      (fun j => j.path))

/-- The outcome of `VWorkflow.run` after construction: whether the run went
on to dispatch to the backend, and which jobs the wait reset to `raw`. -/
structure RunOutcome where
  dispatched : Bool
  resets : List String
deriving DecidableEq, Repr

/-- The dependency-wait gate inside `VWorkflow.run`: when the wait fails the
run returns before assigning workflow ids, building the Snakefile or
executing the backend. -/
def runAfterConstruction (jobs : List WaitJob) (statusAt : Nat → String → String) :
    RunOutcome :=
  if (waitForDependencies jobs statusAt).1 then
    { dispatched := true, resets := (waitForDependencies jobs statusAt).2 }
  else
    { dispatched := false, resets := (waitForDependencies jobs statusAt).2 }

/-! ### DAG assembler (`VWorkflow.construct_workflow_jobs`) -/

/-- Everything the assembler reads about a job from its on-disk records:
`status.json`'s `status` and `machine_id`, `config.json`'s `object_type` and
`dependencies`, and whether `celebi.yaml` declares the `rawdata`
environment. -/
structure JobInfo where
  status : String
  objType : String
  deps : List String
  storedMachine : Option String
  envIsRawdata : Bool

/-- A `(VJob, expanded)` stack entry / an element of `self.jobs`. -/
structure AsmEntry where
  path : String
  machine : Option String
  isInput : Bool
  expanded : Bool
deriving DecidableEq, Repr

/-- The statuses treated as terminal for assembly. -/
def assemblyTerminal : List String :=
  ["finished", "failed", "pending", "running", "archived"]

/-- `VJob(path, machineId)` as far as assembly is concerned: machine falls
back to the status record when the argument is absent; `is_input` is
initialized from the `rawdata` environment sentinel. -/
def mkEntry (env : String → JobInfo) (m : Option String) (p : String) : AsmEntry :=
  { path := p
    machine := match m with
      | some x => some x
      | none => (env p).storedMachine
    isInput := (env p).envIsRawdata
    expanded := false }

/-- Re-creating a popped job with the workflow's machine id
(`job = VJob(job.path, self.machine_id)`); the `expanded` flag of the stack
entry is untouched. -/
def remade (env : String → JobInfo) (wfM : Option String) (e : AsmEntry) : AsmEntry :=
  { mkEntry env wfM e.path with expanded := e.expanded }

/-- The machine-resolution step at the top of the loop body: a popped job
with no machine id is re-created with the workflow's machine id. -/
def resolveMachine (env : String → JobInfo) (wfM : Option String) (e : AsmEntry) :
    AsmEntry :=
  if e.machine = none then remade env wfM e else e

/-- The entry finalized by the terminal branch: a terminal Task job is
additionally marked as an input job. -/
def finalizeTerminal (env : String → JobInfo) (wfM : Option String) (e : AsmEntry) :
    AsmEntry :=
  if (env e.path).objType = "task" then
    { resolveMachine env wfM e with isInput := true }
  else resolveMachine env wfM e

/-- The stack pushed by the expansion branch: the job re-pushed as expanded,
below its not-yet-visited dependencies (dependencies are appended in order,
so the last one ends up topmost). -/
def expandPush (env : String → JobInfo) (wfM : Option String) (e : AsmEntry)
    (visited : List String) (rest : List AsmEntry) : List AsmEntry :=
  ((env e.path).deps.filter (fun d => decide (¬ d ∈ visited))).reverse.map
      (mkEntry env none)
    ++ { resolveMachine env wfM e with expanded := true } :: rest

/-- `VWorkflow.construct_workflow_jobs`'s loop, fuel-indexed.  The stack is
head-topmost; `visited` collects finalized paths; `jobs` is `self.jobs`.
Returns `none` when the fuel runs out before the stack empties. -/
def asmLoop (env : String → JobInfo) (wfM : Option String) :
    Nat → List AsmEntry → List String → List AsmEntry → Option (List AsmEntry)
  | _, [], _, jobs => some jobs
  | 0, _ :: _, _, _ => none
  | fuel + 1, e :: rest, visited, jobs =>
    if e.path ∈ visited ∧ e.expanded = false then
      asmLoop env wfM fuel rest visited jobs
    else if (resolveMachine env wfM e).machine = none then
      asmLoop env wfM fuel rest visited jobs
    else if (env e.path).status ∈ assemblyTerminal then
      asmLoop env wfM fuel rest (e.path :: visited)
        (jobs ++ [finalizeTerminal env wfM e])
    else if e.expanded then
      asmLoop env wfM fuel rest (e.path :: visited)
        (jobs ++ [resolveMachine env wfM e])
    else
      asmLoop env wfM fuel (expandPush env wfM e visited rest) visited jobs

/-- The jobs the traversal reaches: the root jobs, plus dependencies of
every reached job that is not terminal for assembly. -/
inductive Reach (env : String → JobInfo) (roots : List String) : String → Prop
  | root (p : String) (hp : p ∈ roots) : Reach env roots p
  | dep (p d : String) (hp : Reach env roots p)
      (hs : ¬ (env p).status ∈ assemblyTerminal) (hd : d ∈ (env p).deps) :
      Reach env roots d

/-- The paths of a list of entries. -/
def pathsOf (l : List AsmEntry) : List String :=
  l.map (fun e => e.path)

/-- The paths of the stack entries currently pushed back as expanded. -/
def opensOf (stack : List AsmEntry) : List String :=
  pathsOf (stack.filter (fun e => e.expanded))

/-- Everything above an expanded entry has strictly smaller rank (it is a
strict dependency-descendant of the expanded job). -/
def StackRank (rank : String → Nat) (stack : List AsmEntry) : Prop :=
  ∀ a e b, stack = a ++ e :: b → e.expanded = true →
    ∀ f ∈ a, rank f.path < rank e.path

/-- Every dependency of an expanded entry is already visited or still has an
entry above it on the stack. -/
def StackDeps (env : String → JobInfo) (visited : List String)
    (stack : List AsmEntry) : Prop :=
  ∀ a e b, stack = a ++ e :: b → e.expanded = true →
    ∀ d ∈ (env e.path).deps, d ∈ visited ∨ d ∈ pathsOf a

/-- Every non-terminal job of the output list appears strictly after all of
its dependencies. -/
def OrderOK (env : String → JobInfo) (jobs : List AsmEntry) : Prop :=
  ∀ a e b, jobs = a ++ e :: b → ¬ (env e.path).status ∈ assemblyTerminal →
    ∀ d ∈ (env e.path).deps, d ∈ pathsOf a

/-- The visited set is closed under dependencies of non-terminal members. -/
def DepClosed (env : String → JobInfo) (visited : List String) : Prop :=
  ∀ p ∈ visited, ¬ (env p).status ∈ assemblyTerminal →
    ∀ d ∈ (env p).deps, d ∈ visited

/-- The loop invariant of `construct_workflow_jobs`. -/
structure GoodState (env : String → JobInfo) (rank : String → Nat)
    (roots : List String) (stack : List AsmEntry) (visited : List String)
    (jobs : List AsmEntry) : Prop where
  nodup : visited.Nodup
  vis_eq : visited = (pathsOf jobs).reverse
  rank_ok : StackRank rank stack
  order_ok : OrderOK env jobs
  reach_stack : ∀ p ∈ pathsOf stack, Reach env roots p
  reach_vis : ∀ p ∈ visited, Reach env roots p
  dep_closed : DepClosed env visited
  complete : ∀ p, Reach env roots p → Reach env (visited ++ pathsOf stack) p
  stack_deps : StackDeps env visited stack
  no_expanded_visited : ∀ a e b, stack = a ++ e :: b → e.expanded = true →
    e.path ∉ visited

/-- The primary termination measure: universe members that are neither
visited nor open on the stack. -/
def asmMeasure (U : Finset String) (stack : List AsmEntry) (visited : List String) :
    Nat :=
  (U.filter (fun p => p ∉ visited ∧ p ∉ opensOf stack)).card

/-! ### Command compiler (`VContainer._process_user_commands_for_reana`)

Commands are modelled as `List Char`; `replaceAll` is Python's
`str.replace` for a non-empty pattern (leftmost, non-overlapping, all
occurrences), defined with a structural fuel so that it evaluates by
`decide`. -/

/-- `listPre pat s`: `pat` is a prefix of `s`. -/
def listPre : List Char → List Char → Bool
  | [], _ => true
  | _ :: _, [] => false
  | a :: as, b :: bs => a == b && listPre as bs

/-- `hasSub pat s`: `pat` occurs as a contiguous substring of `s`. -/
def hasSub (pat : List Char) : List Char → Bool
  | [] => pat.isEmpty
  | c :: cs => listPre pat (c :: cs) || hasSub pat cs

/-- Fueled scan of Python's `str.replace`: at each position, if the pattern
is a prefix the replacement is emitted and the scan continues past the
matched text, otherwise one character is copied. -/
def replaceAllF (pat val : List Char) : Nat → List Char → List Char
  | _, [] => []
  | 0, c :: cs => c :: cs
  | fuel + 1, c :: cs =>
    if listPre pat (c :: cs) then
      val ++ replaceAllF pat val fuel (List.drop pat.length (c :: cs))
    else c :: replaceAllF pat val fuel cs

/-- Python's `s.replace(pat, val)` for a non-empty `pat`: a fuel of
`s.length` always suffices. -/
def replaceAll (pat val s : List Char) : List Char :=
  replaceAllF pat val s.length s

/-- The `${name}` placeholder token. -/
def tokOf (n : List Char) : List Char :=
  '$' :: '\x7b' :: (n ++ ['\x7d'])

/-- The data of a Task job used by command compilation: parameters in the
sorted key order `parameters()` returns, the `alias_to_impression` map,
the job's and its Build image's short ids, and the image's declarative
command list (`_process_user_commands_for_reana` reads the commands through
`self.image()`, so the image is present whenever commands are compiled). -/
structure TaskModel where
  parameters : List (String × String)
  aliasToImpression : List (String × String)
  shortUuid : String
  imageShort : String
  isInput : Bool
  computeBackend : String
  rawCommands : List String

/-- `VContainer._substitute_parameters`. -/
def substituteParameters (job : TaskModel) (c : List Char) : List Char :=
  job.parameters.foldl
    (fun cmd kv => replaceAll (tokOf kv.1.toList) kv.2.toList cmd) c

/-- `VContainer._substitute_inputs`: each alias is replaced by
`../imp<first 7 chars of the impression>`. -/
def substituteInputs (job : TaskModel) (c : List Char) : List Char :=
  job.aliasToImpression.foldl
    (fun cmd kv =>
      replaceAll (tokOf kv.1.toList) ("../imp".toList ++ kv.2.toList.take 7) cmd) c

/-- `VContainer._substitute_paths`: `${workspace}` → `..`, `${output}` →
`imp<shortUuid>`, `${code}` → `../imp<imageShort>`. -/
def substitutePaths (job : TaskModel) (c : List Char) : List Char :=
  let c1 := replaceAll (tokOf "workspace".toList) "..".toList c
  let c2 := replaceAll (tokOf "output".toList) ("imp".toList ++ job.shortUuid.toList) c1
  replaceAll (tokOf "code".toList) ("../imp".toList ++ job.imageShort.toList) c2

/-- The logging wrapper's opening text. -/
def wrapPre : List Char := "\x7b ".toList

/-- The logging wrapper's closing text for command index `i`. -/
def wrapPost (i : Nat) : List Char :=
  " ; \x7d >> logs/celebi_user_step".toList ++ (Nat.repr i).toList ++ ".log 2>&1".toList

/-- The final `command.replace("\"", "\\\"")` quote escaping. -/
def escapeQuotes (c : List Char) : List Char :=
  replaceAll ['"'] ['\\', '"'] c

/-- Compilation of the `i`-th raw command: substitute parameters, then
input aliases, then path placeholders, wrap with the logging redirection,
and escape double quotes. -/
def processOne (job : TaskModel) (i : Nat) (cmd : String) : List Char :=
  escapeQuotes
    (wrapPre
      ++ substitutePaths job (substituteInputs job (substituteParameters job cmd.toList))
      ++ wrapPost i)

/-- The `enumerate` loop over the raw command list. -/
def processIdx (job : TaskModel) : Nat → List String → List (List Char)
  | _, [] => []
  | i, c :: cs => processOne job i c :: processIdx job (i + 1) cs

/-- `VContainer._process_user_commands_for_reana`: input jobs and jobs bound
to the `htcondorcern` compute backend compile to no user commands. -/
def processUserCommandsForReana (job : TaskModel) : List (List Char) :=
  if job.isInput || job.computeBackend == "htcondorcern" then []
  else processIdx job 0 job.rawCommands

/-- `pat` occurs as a contiguous substring of `s` (propositional form). -/
def occursIn (pat s : List Char) : Prop :=
  ∃ a b, s = a ++ pat ++ b

/-- A string is safe as a name or substitution value when it contains none
of the placeholder-delimiter characters. -/
def sFreeB (l : List Char) : Bool :=
  l.all fun ch => !(ch == '$') && !(ch == '\x7b') && !(ch == '\x7d')

/-- Every dollar sign in `c` starts a well-formed `${n}` token for a name
`n` drawn from `N` (executable form). -/
def invB (N : List (List Char)) : List Char → Bool
  | [] => true
  | c :: cs =>
    (if c = '$' then N.any (fun n => listPre ('\x7b' :: (n ++ ['\x7d'])) cs) else true)
      && invB N cs

/-- Every dollar sign in `c` starts a well-formed `${n}` token for a name
`n` drawn from `N`. -/
def Inv (N : List (List Char)) (c : List Char) : Prop :=
  ∀ a b, c = a ++ '$' :: b → ∃ n ∈ N, listPre ('\x7b' :: (n ++ ['\x7d'])) b = true

/-- The placeholder names declared on a Task job: its parameter names, its
input alias names, and the three fixed path placeholders. -/
def declaredNames (job : TaskModel) : List (List Char) :=
  job.parameters.map (fun kv => kv.1.toList)
    ++ job.aliasToImpression.map (fun kv => kv.1.toList)
    ++ ["workspace".toList, "output".toList, "code".toList]

/-- The substitutions performed by the compiler, in order: parameters, then
aliases, then the fixed path placeholders. -/
def substitutionList (job : TaskModel) : List (List Char × List Char) :=
  job.parameters.map (fun kv => (kv.1.toList, kv.2.toList))
    ++ job.aliasToImpression.map
        (fun kv => (kv.1.toList, "../imp".toList ++ kv.2.toList.take 7))
    ++ [("workspace".toList, "..".toList),
        ("output".toList, "imp".toList ++ job.shortUuid.toList),
        ("code".toList, "../imp".toList ++ job.imageShort.toList)]

/-- Folding a substitution list over a command. -/
def applySubs (subs : List (List Char × List Char)) (c : List Char) : List Char :=
  subs.foldl (fun cmd kv => replaceAll (tokOf kv.1) kv.2 cmd) c

/-- The counterexample job: one declared parameter `data` whose value `$`
contains no placeholder token, and a raw command in which the substitution
re-creates the `${data}` token. -/
def cexJob : TaskModel :=
  { parameters := [("data", "$")]
    aliasToImpression := []
    shortUuid := "aaaaaaa"
    imageShort := "bbbbbbb"
    isInput := false
    computeBackend := "unsigned"
    rawCommands := ["$\x7bdata\x7d\x7bdata\x7d"] }

/-- The scenario job of the spec: alias `data` mapped to impression
`abcdef1`, command template `run ${data}/x.bin`. -/
def scenarioJob : TaskModel :=
  { parameters := []
    aliasToImpression := [("data", "abcdef1")]
    shortUuid := "ccccccc"
    imageShort := "bbbbbbb"
    isInput := false
    computeBackend := "unsigned"
    rawCommands := ["run $\x7bdata\x7d/x.bin"] }

/-- A demo assembly environment for the full assembly: a raw Task job `T`
depending on a raw Build job `B`. -/
def demoEnvC2 : String → JobInfo := fun p =>
  if p = "T" then
    { status := "raw", objType := "task", deps := ["B"],
      storedMachine := some "m", envIsRawdata := false }
  else
    { status := "raw", objType := "algorithm", deps := [],
      storedMachine := some "m", envIsRawdata := false }

/-- A demo assembly environment: a terminal Task job `T` with one
dependency `D`, and a default record everywhere else. -/
def demoEnvC7 : String → JobInfo := fun p =>
  if p = "T" then
    { status := "finished", objType := "task", deps := ["D"],
      storedMachine := some "m", envIsRawdata := false }
  else
    { status := "raw", objType := "task", deps := [],
      storedMachine := some "m", envIsRawdata := false }

/-- A demo assembly environment whose job `X` has no stored machine id. -/
def demoEnvC8 : String → JobInfo := fun _ =>
  { status := "raw", objType := "task", deps := ["D"],
    storedMachine := none, envIsRawdata := false }

/-! ## Theorems -/

/-! ### C1: the status transition table -/

/-- C1: the job status update follows the transition table: from `raw` the
stored status becomes the observed step status only when its length is below
the 20-character guard, else it is unchanged; from `running` it becomes
`success`/`finished`/`failed` as tabulated (including `stopped` observed as
`failed` and workflow-level `failed`), otherwise unchanged; from `stopped`
or `deleted` it becomes `failed`; from any other non-terminal status it
becomes the observed step status when short, else `unknown`.  In particular
`running` + observed `stopped` gives `failed`, and `running` + observed
`success` gives `success`. -/
theorem c1_status_transition_table (step wf : String) :
    (step.length < 20 → updateJobStatus "raw" step wf = step) ∧
    (¬ step.length < 20 → updateJobStatus "raw" step wf = "raw") ∧
    updateJobStatus "running" "success" wf = "success" ∧
    updateJobStatus "running" "finished" wf = "finished" ∧
    updateJobStatus "running" "failed" wf = "failed" ∧
    updateJobStatus "running" "stopped" wf = "failed" ∧
    (step ≠ "success" → step ≠ "finished" → step ≠ "failed" → step ≠ "stopped" →
      wf = "failed" → updateJobStatus "running" step wf = "failed") ∧
    (step ≠ "success" → step ≠ "finished" → step ≠ "failed" → step ≠ "stopped" →
      wf ≠ "failed" → updateJobStatus "running" step wf = "running") ∧
    updateJobStatus "stopped" step wf = "failed" ∧
    updateJobStatus "deleted" step wf = "failed" ∧
    (∀ cur, cur ≠ "raw" → cur ≠ "running" → cur ≠ "stopped" → cur ≠ "deleted" →
      cur ≠ "finished" → cur ≠ "success" → cur ≠ "failed" →
      (step.length < 20 → updateJobStatus cur step wf = step) ∧
      (¬ step.length < 20 → updateJobStatus cur step wf = "unknown")) := by
  refine ⟨?_, ?_, ?_, ?_, ?_, ?_, ?_, ?_, ?_, ?_, ?_⟩
  · intro h
    unfold updateJobStatus
    rw [if_pos rfl, if_pos h]
  · intro h
    unfold updateJobStatus
    rw [if_pos rfl, if_neg h]
  · unfold updateJobStatus
    rw [if_neg (by decide), if_pos rfl, if_pos rfl]
  · unfold updateJobStatus
    rw [if_neg (by decide), if_pos rfl, if_neg (by decide), if_pos rfl]
  · unfold updateJobStatus
    rw [if_neg (by decide), if_pos rfl, if_neg (by decide), if_neg (by decide),
      if_pos (Or.inl rfl)]
  · unfold updateJobStatus
    rw [if_neg (by decide), if_pos rfl, if_neg (by decide), if_neg (by decide),
      if_pos (Or.inr rfl)]
  · intro h1 h2 h3 h4 hw
    unfold updateJobStatus
    rw [if_neg (by decide), if_pos rfl, if_neg h1, if_neg h2,
      if_neg (not_or.mpr ⟨h3, h4⟩), if_pos hw]
  · intro h1 h2 h3 h4 hw
    unfold updateJobStatus
    rw [if_neg (by decide), if_pos rfl, if_neg h1, if_neg h2,
      if_neg (not_or.mpr ⟨h3, h4⟩), if_neg hw]
  · unfold updateJobStatus
    rw [if_neg (by decide), if_neg (by decide), if_pos (Or.inl rfl)]
  · unfold updateJobStatus
    rw [if_neg (by decide), if_neg (by decide), if_pos (Or.inr rfl)]
  · intro cur h1 h2 h3 h4 h5 h6 h7
    constructor
    · intro hlen
      unfold updateJobStatus
      rw [if_neg h1, if_neg h2, if_neg (not_or.mpr ⟨h3, h4⟩),
        if_neg (not_or.mpr ⟨h5, not_or.mpr ⟨h6, h7⟩⟩), if_pos hlen]
    · intro hlen
      unfold updateJobStatus
      rw [if_neg h1, if_neg h2, if_neg (not_or.mpr ⟨h3, h4⟩),
        if_neg (not_or.mpr ⟨h5, not_or.mpr ⟨h6, h7⟩⟩), if_neg hlen]

/-- Witness for C1: the spec's scenario instances of the table. -/
theorem c1_status_transition_table_witness :
    updateJobStatus "running" "stopped" "running" = "failed" ∧
    updateJobStatus "running" "success" "running" = "success" ∧
    ("queued".length < 20 ∧ updateJobStatus "raw" "queued" "running" = "queued") :=
  ⟨(c1_status_transition_table "stopped" "running").2.2.2.2.2.1,
   (c1_status_transition_table "success" "running").2.2.1,
   by decide, (c1_status_transition_table "queued" "running").1 (by decide)⟩

/-! ### C4: terminal statuses are fixed points of the status update -/

/-- Helper: `_update_job_status` leaves a terminal status unchanged. -/
theorem updateJobStatus_terminal (cur s w : String)
    (h : cur = "finished" ∨ cur = "success" ∨ cur = "failed") :
    updateJobStatus cur s w = cur := by
  rcases h with h | h | h <;> subst h <;>
    · unfold updateJobStatus
      rw [if_neg (by decide), if_neg (by decide), if_neg (by decide), if_pos (by decide)]

/-- Helper: `update_status_from_workflow` does not change a terminal stored
status. -/
theorem updateStatusFromWorkflow_status_terminal (jt : String) (m wfr ms : Option String)
    (sr : StatusRecord)
    (h : sr.status = "finished" ∨ sr.status = "success" ∨ sr.status = "failed") :
    (updateStatusFromWorkflow jt m wfr ms sr).status = sr.status := by
  unfold updateStatusFromWorkflow
  by_cases hj : jt = "algorithm"
  · rw [if_pos hj]
  · rw [if_neg hj, if_pos h]

/-- Helper: iterating the status update preserves a terminal stored
status. -/
theorem applyStatusUpdates_terminal
    (inputs : Nat → String × Option String × Option String × Option String) :
    ∀ (n : Nat) (sr : StatusRecord),
      (sr.status = "finished" ∨ sr.status = "success" ∨ sr.status = "failed") →
      (applyStatusUpdates inputs n sr).status = sr.status := by
  intro n
  induction n with
  | zero => intro sr _; rfl
  | succ n ih =>
    intro sr h
    have hpres := updateStatusFromWorkflow_status_terminal (inputs n).1 (inputs n).2.1
      (inputs n).2.2.1 (inputs n).2.2.2 sr h
    calc (applyStatusUpdates inputs (n + 1) sr).status
        = (applyStatusUpdates inputs n
            (updateStatusFromWorkflow (inputs n).1 (inputs n).2.1 (inputs n).2.2.1
              (inputs n).2.2.2 sr)).status := rfl
      _ = (updateStatusFromWorkflow (inputs n).1 (inputs n).2.1 (inputs n).2.2.1
            (inputs n).2.2.2 sr).status := ih _ (by rw [hpres]; exact h)
      _ = sr.status := hpres

/-- C4: for a job whose stored status is `finished`, `success` or `failed`,
applying the status update any number of further times, with any observed
step status and any observed workflow status, leaves the stored status
unchanged. -/
theorem c4_terminal_idempotent (sr : StatusRecord)
    (h : sr.status = "finished" ∨ sr.status = "success" ∨ sr.status = "failed") :
    (∀ stepStatus wfStatus, updateJobStatus sr.status stepStatus wfStatus = sr.status) ∧
    (∀ (n : Nat) (inputs : Nat → String × Option String × Option String × Option String),
      (applyStatusUpdates inputs n sr).status = sr.status) :=
  ⟨fun s w => updateJobStatus_terminal sr.status s w h,
   fun n inputs => applyStatusUpdates_terminal inputs n sr h⟩

/-- Witness for C4: a `finished` record stays `finished` across three
further updates with adversarial observations. -/
theorem c4_terminal_idempotent_witness :
    (applyStatusUpdates (fun _ => ("task", some "m", some "failed", some "stopped")) 3
      ⟨"finished", none⟩).status = "finished" :=
  (c4_terminal_idempotent ⟨"finished", none⟩ (Or.inl rfl)).2 3 _

/-! ### C10: status sync never touches a Build (`algorithm`) job -/

/-- C10: for a job whose kind discriminator is `algorithm`,
`update_status_from_workflow` returns before reading or writing the status
record: the record (status and `machine_id` alike) is returned unchanged,
whatever the observed statuses are. -/
theorem c10_algorithm_frame (m wfr ms : Option String) (sr : StatusRecord) :
    updateStatusFromWorkflow "algorithm" m wfr ms sr = sr := by
  unfold updateStatusFromWorkflow
  rw [if_pos rfl]

/-! ### C6: local backend status refresh -/

/-- Helper: the all-done scan succeeds exactly when every marker exists. -/
theorem allDone_iff (f : String → Bool) :
    ∀ l : List String, allDone f l = true ↔ ∀ j ∈ l, f j = true := by
  intro l
  induction l with
  | nil => simp [allDone]
  | cons j rest ih =>
    rw [allDone]
    by_cases hf : f j = true
    · rw [if_pos hf, ih]
      constructor
      · intro hall x hx
        rcases List.mem_cons.mp hx with rfl | hx
        · exact hf
        · exact hall x hx
      · intro hall x hx
        exact hall x (List.mem_cons_of_mem _ hx)
    · rw [if_neg hf]
      constructor
      · intro hfalse
        exact absurd hfalse (by decide)
      · intro hall
        exact absurd (hall j (List.mem_cons_self j rest)) hf

/-- C6: the local backend records `finished` iff the `.done` marker of every
step in the manifest exists, `running` otherwise, together with the
`total`/`completed` progress counts; in particular 2 of 3 markers report
`running` with progress 2/3 and 3 of 3 report `finished` with 3/3. -/
theorem c6_local_status_refresh (stepNames : List String) (doneExists : String → Bool) :
    ((updateWorkflowStatusLocal stepNames doneExists).status = "finished" ↔
      ∀ j ∈ jobsFromSteps stepNames, doneExists j = true) ∧
    ((updateWorkflowStatusLocal stepNames doneExists).status = "running" ↔
      ¬ ∀ j ∈ jobsFromSteps stepNames, doneExists j = true) ∧
    (updateWorkflowStatusLocal stepNames doneExists).progress.total =
      (jobsFromSteps stepNames).length ∧
    (updateWorkflowStatusLocal stepNames doneExists).progress.completed =
      ((jobsFromSteps stepNames).filter (fun j => doneExists j)).length ∧
    updateWorkflowStatusLocal ["stepaaaaaaa", "stepbbbbbbb", "stepccccccc"]
        (fun j => j == "aaaaaaa" || j == "bbbbbbb") =
      { status := "running", progress := { total := 3, completed := 2 } } ∧
    updateWorkflowStatusLocal ["stepaaaaaaa", "stepbbbbbbb", "stepccccccc"]
        (fun j => true) =
      { status := "finished", progress := { total := 3, completed := 3 } } := by
  have hst : (updateWorkflowStatusLocal stepNames doneExists).status =
      if allDone doneExists (jobsFromSteps stepNames) = true then "finished"
      else "running" := rfl
  refine ⟨?_, ?_, rfl, ?_, by decide, by decide⟩
  · rw [hst]
    by_cases hd : allDone doneExists (jobsFromSteps stepNames) = true
    · rw [if_pos hd]
      constructor
      · intro _; exact (allDone_iff doneExists _).mp hd
      · intro _; rfl
    · rw [if_neg hd]
      constructor
      · intro hfalse; exact absurd hfalse (by decide)
      · intro hall; exact absurd ((allDone_iff doneExists _).mpr hall) hd
  · rw [hst]
    by_cases hd : allDone doneExists (jobsFromSteps stepNames) = true
    · rw [if_pos hd]
      constructor
      · intro hfalse; exact absurd hfalse (by decide)
      · intro hnot; exact absurd ((allDone_iff doneExists _).mp hd) hnot
    · rw [if_neg hd]
      constructor
      · intro _; exact fun hall => hd ((allDone_iff doneExists _).mpr hall)
      · intro _; rfl
  · show (jobsFromSteps stepNames).countP (fun j => doneExists j) = _
    exact List.countP_eq_length_filter _ _

/-! ### C9: kill is signalled to the backend and the job marked failed -/

/-- Helper: a recorded remote stop signal survives further kill steps. -/
theorem runnerKillFold_stop_mono (w : String) :
    ∀ (ctxs : List RunnerCtx) (s : KillState), w ∈ s.stopSignals →
      w ∈ (ctxs.foldl runnerKillStep s).stopSignals := by
  intro ctxs
  induction ctxs with
  | nil => intro s h; exact h
  | cons c rest ih =>
    intro s h
    refine ih _ ?_
    cases hm : c.mode
    · simp only [runnerKillStep, hm, reanaWorkflowKill]
      exact List.mem_cons_of_mem _ h
    · simp only [runnerKillStep, hm, dryWorkflowKill, List.foldl_nil]
      exact h

/-- Helper: a workflow results status already set to `killed` survives
further kill steps. -/
theorem runnerKillFold_killed_mono (u : String) :
    ∀ (ctxs : List RunnerCtx) (s : KillState), s.wfResults u = "killed" →
      (ctxs.foldl runnerKillStep s).wfResults u = "killed" := by
  intro ctxs
  induction ctxs with
  | nil => intro s h; exact h
  | cons c rest ih =>
    intro s h
    refine ih _ ?_
    cases hm : c.mode
    · simp only [runnerKillStep, hm, reanaWorkflowKill]
      exact h
    · simp only [runnerKillStep, hm, dryWorkflowKill, List.foldl_nil]
      by_cases hu : u = c.wfUuid
      · simp [hu]
      · simp [hu, h]

/-- Helper: after the kill fold, every runner context got its stop signal
(remote strategy) or its `killed` workflow record (local strategy). -/
theorem runnerKillFold_covers :
    ∀ (ctxs : List RunnerCtx) (s : KillState), ∀ c ∈ ctxs,
      (c.mode = BackendMode.reana →
        c.wfName ∈ (ctxs.foldl runnerKillStep s).stopSignals) ∧
      (c.mode = BackendMode.dry →
        (ctxs.foldl runnerKillStep s).wfResults c.wfUuid = "killed") := by
  intro ctxs
  induction ctxs with
  | nil => intro s c hc; exact absurd hc (List.not_mem_nil c)
  | cons x rest ih =>
    intro s c hc
    rcases List.mem_cons.mp hc with rfl | hc
    · constructor
      · intro hm
        rw [List.foldl_cons]
        refine runnerKillFold_stop_mono _ _ _ ?_
        simp [runnerKillStep, hm, reanaWorkflowKill]
      · intro hm
        rw [List.foldl_cons]
        refine runnerKillFold_killed_mono _ _ _ ?_
        simp [runnerKillStep, hm, dryWorkflowKill]
    · exact ih _ c hc

/-- C9: for both execution strategies, the storage-level kill signals every
associated backend workflow to stop (a remote `stop_workflow` call for the
remote strategy, a `killed` workflow record for the local strategy) and
marks the impression's local job status `failed`. -/
theorem c9_kill_signals_and_fails (jobPath : String) (ctxs : List RunnerCtx)
    (s : KillState) :
    (impressionStorageKill jobPath ctxs s).jobStatuses jobPath = "failed" ∧
    ∀ c ∈ ctxs,
      (c.mode = BackendMode.reana →
        c.wfName ∈ (impressionStorageKill jobPath ctxs s).stopSignals) ∧
      (c.mode = BackendMode.dry →
        (impressionStorageKill jobPath ctxs s).wfResults c.wfUuid = "killed") := by
  constructor
  · simp [impressionStorageKill, setJobStatus]
  · intro c hc
    have h := runnerKillFold_covers ctxs s c hc
    exact ⟨fun hm => h.1 hm, fun hm => h.2 hm⟩

/-- Witness for C9: one remote and one local runner context. -/
theorem c9_kill_signals_and_fails_witness :
    (impressionStorageKill "jobp"
        [⟨"mach1", "u1", "w1", BackendMode.reana⟩, ⟨"mach2", "u2", "w2", BackendMode.dry⟩]
        ⟨[], fun _ => "running", fun _ => "running"⟩).jobStatuses "jobp" = "failed" ∧
    "w1" ∈ (impressionStorageKill "jobp"
        [⟨"mach1", "u1", "w1", BackendMode.reana⟩, ⟨"mach2", "u2", "w2", BackendMode.dry⟩]
        ⟨[], fun _ => "running", fun _ => "running"⟩).stopSignals ∧
    (impressionStorageKill "jobp"
        [⟨"mach1", "u1", "w1", BackendMode.reana⟩, ⟨"mach2", "u2", "w2", BackendMode.dry⟩]
        ⟨[], fun _ => "running", fun _ => "running"⟩).wfResults "u2" = "killed" := by
  have h := c9_kill_signals_and_fails "jobp"
    [⟨"mach1", "u1", "w1", BackendMode.reana⟩, ⟨"mach2", "u2", "w2", BackendMode.dry⟩]
    ⟨[], fun _ => "running", fun _ => "running"⟩
  refine ⟨h.1, ?_, ?_⟩
  · exact (h.2 ⟨"mach1", "u1", "w1", BackendMode.reana⟩ (by simp)).1 rfl
  · exact (h.2 ⟨"mach2", "u2", "w2", BackendMode.dry⟩ (by simp)).2 rfl

/-! ### C3: the bounded dependency wait -/

/-- Helper: the retry loop succeeds exactly when some attempt within the
window observes all dependencies finished. -/
theorem waitLoop_true_iff (jobs : List WaitJob) (statusAt : Nat → String → String) :
    ∀ (r a : Nat), waitLoop jobs statusAt a r = true ↔
      ∃ k, k < r ∧ allFinishedAt jobs statusAt (a + k) = true := by
  intro r
  induction r with
  | zero =>
    intro a
    simp [waitLoop]
  | succ r ih =>
    intro a
    rw [waitLoop]
    by_cases h : allFinishedAt jobs statusAt a = true
    · rw [if_pos h]
      constructor
      · intro _; exact ⟨0, Nat.succ_pos r, by simpa using h⟩
      · intro _; rfl
    · rw [if_neg h, ih (a + 1)]
      constructor
      · rintro ⟨k, hk, hfin⟩
        exact ⟨k + 1, Nat.succ_lt_succ hk, by rw [show a + (k + 1) = a + 1 + k by omega]; exact hfin⟩
      · rintro ⟨k, hk, hfin⟩
        cases k with
        | zero => exact absurd (by simpa using hfin) h
        | succ k =>
          exact ⟨k, Nat.lt_of_succ_lt_succ hk, by rw [show a + 1 + k = a + (k + 1) by omega]; exact hfin⟩

/-- C3: the dependency wait performs at most 60 polls.  If some attempt
`i < 60` observes every relevant input job finished, the wait succeeds and
resets nothing; if no attempt does, the wait fails, every non-input,
non-Build job is reset to `raw`, and the run stops without dispatching to
the backend. -/
theorem c3_dependency_wait (jobs : List WaitJob) (statusAt : Nat → String → String) :
    ((∃ i, i < 60 ∧ allFinishedAt jobs statusAt i = true) →
      (waitForDependencies jobs statusAt).1 = true ∧
      (waitForDependencies jobs statusAt).2 = [] ∧
      (runAfterConstruction jobs statusAt).dispatched = true) ∧
    ((∀ i, i < 60 → allFinishedAt jobs statusAt i = false) →
      (waitForDependencies jobs statusAt).1 = false ∧
      (∀ j ∈ jobs, j.isInput = false → ¬ j.jobType = "algorithm" →
        j.path ∈ (waitForDependencies jobs statusAt).2) ∧
      (runAfterConstruction jobs statusAt).dispatched = false) := by
  constructor
  · intro h
    have hloop : waitLoop jobs statusAt 0 60 = true := by
      rw [waitLoop_true_iff]
      obtain ⟨i, hi, hfin⟩ := h
      exact ⟨i, hi, by simpa using hfin⟩
    refine ⟨?_, ?_, ?_⟩
    · simp [waitForDependencies, hloop]
    · simp [waitForDependencies, hloop]
    · simp [runAfterConstruction, waitForDependencies, hloop]
  · intro h
    have hloop : waitLoop jobs statusAt 0 60 = false := by
      cases hl : waitLoop jobs statusAt 0 60
      · rfl
      · obtain ⟨k, hk, hfin⟩ := (waitLoop_true_iff jobs statusAt 60 0).mp hl
        simp only [Nat.zero_add] at hfin
        rw [h k hk] at hfin
        exact absurd hfin (by decide)
    refine ⟨?_, ?_, ?_⟩
    · simp [waitForDependencies, hloop]
    · intro j hj hinp htype
      simp only [waitForDependencies, hloop]
      rw [if_neg (by decide)]
      simp only [List.mem_map]
      refine ⟨j, ?_, rfl⟩
      rw [List.mem_filter]
      exact ⟨hj, by simp [hinp, htype]⟩
    · simp [runAfterConstruction, waitForDependencies, hloop]

/-- Witness for C3: a single finished input dependency is observed at the
first attempt, so the wait succeeds with no resets and the run dispatches. -/
theorem c3_dependency_wait_witness :
    (waitForDependencies [⟨"j1", true, "task"⟩] (fun _ _ => "finished")).1 = true ∧
    (waitForDependencies [⟨"j1", true, "task"⟩] (fun _ _ => "finished")).2 = [] ∧
    (runAfterConstruction [⟨"j1", true, "task"⟩] (fun _ _ => "finished")).dispatched = true :=
  (c3_dependency_wait [⟨"j1", true, "task"⟩] (fun _ _ => "finished")).1
    ⟨0, by decide, by decide⟩

/-! ### C7: terminal jobs are finalized immediately, never expanded -/

/-- C7: when the popped job's status is terminal for assembly, it is
appended to the job list in the same step — marked `isInput` when it is a
Task job — its path is recorded as visited, and the traversal continues on
the remaining stack: its dependency list is never pushed. -/
theorem c7_terminal_finalized_immediately (env : String → JobInfo) (wfM : Option String)
    (fuel : Nat) (e : AsmEntry) (rest : List AsmEntry) (visited : List String)
    (jobs : List AsmEntry)
    (hskip : ¬ (e.path ∈ visited ∧ e.expanded = false))
    (hm : ¬ (resolveMachine env wfM e).machine = none)
    (hterm : (env e.path).status ∈ assemblyTerminal) :
    asmLoop env wfM (fuel + 1) (e :: rest) visited jobs =
      asmLoop env wfM fuel rest (e.path :: visited)
        (jobs ++ [finalizeTerminal env wfM e]) ∧
    ((env e.path).objType = "task" → (finalizeTerminal env wfM e).isInput = true) := by
  constructor
  · rw [asmLoop, if_neg hskip, if_neg hm, if_pos hterm]
  · intro ht
    rw [finalizeTerminal, if_pos ht]

/-- Witness for C7: a terminal Task job with one dependency is finalized at
once with `isInput` set, and the dependency is not pushed. -/
theorem c7_terminal_finalized_immediately_witness :
    ((demoEnvC7 "T").status ∈ assemblyTerminal) ∧
    (asmLoop demoEnvC7 (some "m0") 3 [⟨"T", some "m", false, false⟩] [] [] =
      asmLoop demoEnvC7 (some "m0") 2 [] ["T"]
        [finalizeTerminal demoEnvC7 (some "m0") ⟨"T", some "m", false, false⟩] ∧
      ((demoEnvC7 "T").objType = "task" →
        (finalizeTerminal demoEnvC7 (some "m0") ⟨"T", some "m", false, false⟩).isInput =
          true)) :=
  ⟨by decide,
   c7_terminal_finalized_immediately demoEnvC7 (some "m0") 2 ⟨"T", some "m", false, false⟩
     [] [] [] (by decide) (by decide) (by decide)⟩

/-! ### C8: machine-unresolvable jobs are dropped silently -/

/-- C8: when the popped job's machine id is unset and re-creating the job
still resolves no machine id, the step drops the entry: the job list and
visited set are unchanged, no dependency is pushed, and the loop simply
continues with the remaining stack. -/
theorem c8_unresolvable_dropped (env : String → JobInfo) (wfM : Option String)
    (fuel : Nat) (e : AsmEntry) (rest : List AsmEntry) (visited : List String)
    (jobs : List AsmEntry)
    (hskip : ¬ (e.path ∈ visited ∧ e.expanded = false))
    (hm : e.machine = none)
    (hm2 : (remade env wfM e).machine = none) :
    asmLoop env wfM (fuel + 1) (e :: rest) visited jobs =
      asmLoop env wfM fuel rest visited jobs := by
  rw [asmLoop, if_neg hskip, if_pos (show (resolveMachine env wfM e).machine = none by
    rw [resolveMachine, if_pos hm]; exact hm2)]

/-! ### C2: the full DAG assembly — helper lemmas -/

/-- Re-creation does not change the entry's path. -/
theorem remade_path (env : String → JobInfo) (wfM : Option String) (e : AsmEntry) :
    (remade env wfM e).path = e.path := rfl

/-- Machine resolution does not change the entry's path. -/
theorem resolveMachine_path (env : String → JobInfo) (wfM : Option String) (e : AsmEntry) :
    (resolveMachine env wfM e).path = e.path := by
  rw [resolveMachine]; split <;> rfl

/-- Machine resolution does not change the entry's expanded flag. -/
theorem resolveMachine_expanded (env : String → JobInfo) (wfM : Option String)
    (e : AsmEntry) : (resolveMachine env wfM e).expanded = e.expanded := by
  rw [resolveMachine]; split <;> rfl

/-- Terminal finalization does not change the entry's path. -/
theorem finalizeTerminal_path (env : String → JobInfo) (wfM : Option String)
    (e : AsmEntry) : (finalizeTerminal env wfM e).path = e.path := by
  rw [finalizeTerminal]; split
  · exact resolveMachine_path env wfM e
  · exact resolveMachine_path env wfM e

/-- Resolvability of a universe member's machine id. -/
theorem resolveMachine_ne_none {env : String → JobInfo} {wfM : Option String}
    {e : AsmEntry} {U : Finset String}
    (hres : ∀ p ∈ U, ¬ (mkEntry env wfM p).machine = none) (hU : e.path ∈ U) :
    ¬ (resolveMachine env wfM e).machine = none := by
  rw [resolveMachine]
  split
  · exact hres e.path hU
  · next h => exact h

/-- `pathsOf` distributes over append. -/
theorem pathsOf_append (l₁ l₂ : List AsmEntry) :
    pathsOf (l₁ ++ l₂) = pathsOf l₁ ++ pathsOf l₂ :=
  List.map_append _ _ _

/-- `pathsOf` on a cons. -/
theorem pathsOf_cons (e : AsmEntry) (l : List AsmEntry) :
    pathsOf (e :: l) = e.path :: pathsOf l := rfl

/-- Membership in `pathsOf`. -/
theorem mem_pathsOf {p : String} {l : List AsmEntry} :
    p ∈ pathsOf l ↔ ∃ e ∈ l, e.path = p := by
  simp [pathsOf]

/-- Unexpanded entries do not contribute to the open set. -/
theorem opensOf_cons_of_not_expanded {e : AsmEntry} (h : e.expanded = false)
    (l : List AsmEntry) : opensOf (e :: l) = opensOf l := by
  simp [opensOf, List.filter_cons, h]

/-- Expanded entries head the open set. -/
theorem opensOf_cons_of_expanded {e : AsmEntry} (h : e.expanded = true)
    (l : List AsmEntry) : opensOf (e :: l) = e.path :: opensOf l := by
  simp [opensOf, List.filter_cons, h, pathsOf]

/-- Membership in the open set. -/
theorem mem_opensOf {p : String} {l : List AsmEntry} :
    p ∈ opensOf l ↔ ∃ e ∈ l, e.expanded = true ∧ e.path = p := by
  simp [opensOf, pathsOf, List.mem_filter, and_assoc]

/-- The open set distributes over append. -/
theorem opensOf_append (l₁ l₂ : List AsmEntry) :
    opensOf (l₁ ++ l₂) = opensOf l₁ ++ opensOf l₂ := by
  simp [opensOf, pathsOf, List.filter_append]

/-- Freshly pushed dependency entries are all unexpanded. -/
theorem opensOf_map_mkEntry (env : String → JobInfo) (l : List String) :
    opensOf (l.map (mkEntry env none)) = [] := by
  induction l with
  | nil => rfl
  | cons x xs ih =>
    rw [List.map_cons, opensOf_cons_of_not_expanded rfl, ih]

/-- The open set of the stack pushed by the expansion branch. -/
theorem opensOf_expandPush (env : String → JobInfo) (wfM : Option String)
    (e : AsmEntry) (visited : List String) (rest : List AsmEntry) :
    opensOf (expandPush env wfM e visited rest) = e.path :: opensOf rest := by
  rw [expandPush, opensOf_append, opensOf_map_mkEntry,
    opensOf_cons_of_expanded rfl, List.nil_append]
  rw [show ({ resolveMachine env wfM e with expanded := true } : AsmEntry).path =
    (resolveMachine env wfM e).path from rfl, resolveMachine_path]

/-- Three-way decomposition of one split of `l₁ ++ x :: l₂`. -/
theorem cons_append_split {α : Type} {l₁ l₂ a b : List α} {x f : α}
    (h : l₁ ++ x :: l₂ = a ++ f :: b) :
    (∃ b₁, l₁ = a ++ f :: b₁ ∧ b = b₁ ++ x :: l₂) ∨
    (a = l₁ ∧ f = x ∧ b = l₂) ∨
    (∃ a₂, a = l₁ ++ x :: a₂ ∧ l₂ = a₂ ++ f :: b) := by
  rcases List.append_eq_append_iff.mp h with ⟨a', ha, hx⟩ | ⟨c', hc, hx⟩
  · cases a' with
    | nil =>
      right; left
      have hfb := hx
      rw [List.nil_append] at hfb
      exact ⟨by rw [ha, List.append_nil], (List.cons_eq_cons.mp hfb).1.symm,
        (List.cons_eq_cons.mp hfb).2.symm⟩
    | cons y a₂ =>
      right; right
      have := List.cons_eq_cons.mp hx
      refine ⟨a₂, ?_, this.2⟩
      rw [ha, this.1]
  · cases c' with
    | nil =>
      right; left
      rw [List.append_nil] at hc
      have := List.cons_eq_cons.mp hx
      exact ⟨hc.symm, this.1, this.2⟩
    | cons y b₁ =>
      left
      have := List.cons_eq_cons.mp hx
      exact ⟨b₁, by rw [hc, this.1], this.2⟩

/-- Decomposition of one split of `l ++ [x]`. -/
theorem snoc_split {α : Type} {l a b : List α} {x f : α}
    (h : l ++ [x] = a ++ f :: b) :
    (a = l ∧ f = x ∧ b = []) ∨ ∃ b₁, b = b₁ ++ [x] ∧ l = a ++ f :: b₁ := by
  rcases cons_append_split h with ⟨b₁, hl, hb⟩ | ⟨ha, hf, hb⟩ | ⟨a₂, _, hnil⟩
  · right; exact ⟨b₁, hb, hl⟩
  · left; exact ⟨ha, hf, hb⟩
  · exact absurd hnil.symm (List.append_ne_nil_of_right_ne_nil a₂ (by simp))

/-- Reach is monotone in its base set. -/
theorem reach_mono_base (env : String → JobInfo) {B₁ B₂ : List String}
    (hsub : ∀ x ∈ B₁, x ∈ B₂) : ∀ p, Reach env B₁ p → Reach env B₂ p := by
  intro p h
  induction h with
  | root q hq => exact Reach.root q (hsub q hq)
  | dep q d _ hs hd ih => exact Reach.dep q d ih hs hd

/-- Reach from a dependency-closed set stays inside it. -/
theorem reach_collapse (env : String → JobInfo) {V : List String}
    (hclosed : DepClosed env V) : ∀ p, Reach env V p → p ∈ V := by
  intro p h
  induction h with
  | root q hq => exact hq
  | dep q d _ hs hd ih => exact hclosed q ih hs d hd

/-- Reach stays inside a dependency-closed universe containing the roots. -/
theorem reach_subset_univ (env : String → JobInfo) {roots : List String}
    {U : Finset String}
    (hUroot : ∀ p ∈ roots, p ∈ U)
    (hUclosed : ∀ p ∈ U, ¬ (env p).status ∈ assemblyTerminal →
      ∀ d ∈ (env p).deps, d ∈ U) :
    ∀ p, Reach env roots p → p ∈ U := by
  intro p h
  induction h with
  | root q hq => exact hUroot q hq
  | dep q d _ hs hd ih => exact hUclosed q ih hs d hd

/-- The popped entry's path is not open deeper in the stack. -/
theorem top_path_not_in_opens {rank : String → Nat} {e : AsmEntry}
    {rest : List AsmEntry} (hrank : StackRank rank (e :: rest)) :
    e.path ∉ opensOf rest := by
  intro hmem
  rcases mem_opensOf.mp hmem with ⟨f, hf, hfe, hfp⟩
  obtain ⟨a, b, hab⟩ := List.append_of_mem hf
  have := hrank (e :: a) f b (by rw [hab]; rfl) hfe e (List.mem_cons_self e a)
  rw [hfp] at this
  exact lt_irrefl _ this

/-- Invariant preservation for the dedup-skip branch. -/
theorem good_skip {env : String → JobInfo} {rank : String → Nat} {roots : List String}
    {e : AsmEntry} {rest : List AsmEntry} {visited : List String} {jobs : List AsmEntry}
    (hvis : e.path ∈ visited)
    (g : GoodState env rank roots (e :: rest) visited jobs) :
    GoodState env rank roots rest visited jobs := by
  refine ⟨g.nodup, g.vis_eq, ?_, g.order_ok, ?_, g.reach_vis, g.dep_closed, ?_, ?_, ?_⟩
  · intro a f b hsplit hf x hx
    exact g.rank_ok (e :: a) f b (by rw [hsplit]; rfl) hf x (List.mem_cons_of_mem _ hx)
  · intro p hp
    exact g.reach_stack p (by rw [pathsOf_cons]; exact List.mem_cons_of_mem _ hp)
  · intro p hp
    refine reach_mono_base env ?_ p (g.complete p hp)
    intro x hx
    rcases List.mem_append.mp hx with hx | hx
    · exact List.mem_append.mpr (Or.inl hx)
    · rw [pathsOf_cons] at hx
      rcases List.mem_cons.mp hx with rfl | hx
      · exact List.mem_append.mpr (Or.inl hvis)
      · exact List.mem_append.mpr (Or.inr hx)
  · intro a f b hsplit hf d hd
    rcases g.stack_deps (e :: a) f b (by rw [hsplit]; rfl) hf d hd with h | h
    · exact Or.inl h
    · rw [pathsOf_cons] at h
      rcases List.mem_cons.mp h with rfl | h
      · exact Or.inl hvis
      · exact Or.inr h
  · intro a f b hsplit hf
    exact g.no_expanded_visited (e :: a) f b (by rw [hsplit]; rfl) hf

/-- Invariant preservation for the two finalizing branches: the popped entry
is appended (as `newE`, which keeps its path), its path is marked visited,
and the stack shrinks.  `horder` supplies the ordering fact for a
non-terminal append. -/
theorem good_append {env : String → JobInfo} {rank : String → Nat} {roots : List String}
    {e : AsmEntry} {rest : List AsmEntry} {visited : List String} {jobs : List AsmEntry}
    {newE : AsmEntry}
    (hpath : newE.path = e.path)
    (hvis : e.path ∉ visited)
    (g : GoodState env rank roots (e :: rest) visited jobs)
    (horder : ¬ (env e.path).status ∈ assemblyTerminal →
      ∀ d ∈ (env e.path).deps, d ∈ pathsOf jobs) :
    GoodState env rank roots rest (e.path :: visited) (jobs ++ [newE]) := by
  have hpaths : pathsOf (jobs ++ [newE]) = pathsOf jobs ++ [e.path] := by
    rw [pathsOf_append]
    simp [pathsOf, hpath]
  refine ⟨?_, ?_, ?_, ?_, ?_, ?_, ?_, ?_, ?_, ?_⟩
  · exact List.nodup_cons.mpr ⟨hvis, g.nodup⟩
  · rw [hpaths, List.reverse_append, g.vis_eq]
    rfl
  · intro a f b hsplit hf x hx
    exact g.rank_ok (e :: a) f b (by rw [hsplit]; rfl) hf x (List.mem_cons_of_mem _ hx)
  · intro a f b hsplit hterm' d hd
    rcases snoc_split hsplit with ⟨ha, hfx, _⟩ | ⟨b₁, _, hjobs⟩
    · have hd' : d ∈ (env e.path).deps := by rw [hfx, hpath] at hd; exact hd
      have ht : ¬ (env e.path).status ∈ assemblyTerminal := by
        rw [hfx, hpath] at hterm'; exact hterm'
      rw [ha]
      exact horder ht d hd'
    · exact g.order_ok a f b₁ hjobs hterm' d hd
  · intro p hp
    exact g.reach_stack p (by rw [pathsOf_cons]; exact List.mem_cons_of_mem _ hp)
  · intro p hp
    rcases List.mem_cons.mp hp with rfl | hp
    · exact g.reach_stack e.path (by rw [pathsOf_cons]; exact List.mem_cons_self _ _)
    · exact g.reach_vis p hp
  · intro p hp hterm' d hd
    rcases List.mem_cons.mp hp with rfl | hp
    · have hdj := horder hterm' d hd
      have hdv : d ∈ visited := by
        rw [g.vis_eq]
        exact List.mem_reverse.mpr hdj
      exact List.mem_cons_of_mem _ hdv
    · exact List.mem_cons_of_mem _ (g.dep_closed p hp hterm' d hd)
  · intro p hp
    refine reach_mono_base env ?_ p (g.complete p hp)
    intro x hx
    rcases List.mem_append.mp hx with hx | hx
    · exact List.mem_append.mpr (Or.inl (List.mem_cons_of_mem _ hx))
    · rw [pathsOf_cons] at hx
      rcases List.mem_cons.mp hx with rfl | hx
      · exact List.mem_append.mpr (Or.inl (List.mem_cons_self _ _))
      · exact List.mem_append.mpr (Or.inr hx)
  · intro a f b hsplit hf d hd
    rcases g.stack_deps (e :: a) f b (by rw [hsplit]; rfl) hf d hd with h | h
    · exact Or.inl (List.mem_cons_of_mem _ h)
    · rw [pathsOf_cons] at h
      rcases List.mem_cons.mp h with rfl | h
      · exact Or.inl (List.mem_cons_self _ _)
      · exact Or.inr h
  · intro a f b hsplit hf
    have hfe : f.path ≠ e.path := by
      intro hfep
      have hnot : e.path ∉ opensOf rest := top_path_not_in_opens g.rank_ok
      exact hnot (mem_opensOf.mpr ⟨f,
        by rw [hsplit]; exact List.mem_append.mpr (Or.inr (List.mem_cons_self f b)),
        hf, hfep⟩)
    intro hmem
    rcases List.mem_cons.mp hmem with h | h
    · exact hfe h
    · exact g.no_expanded_visited (e :: a) f b (by rw [hsplit]; rfl) hf h

/-- Invariant preservation for the expansion branch. -/
theorem good_expand {env : String → JobInfo} {rank : String → Nat} {roots : List String}
    {wfM : Option String} {e : AsmEntry} {rest : List AsmEntry} {visited : List String}
    {jobs : List AsmEntry}
    (hvis : e.path ∉ visited)
    (hterm : ¬ (env e.path).status ∈ assemblyTerminal)
    (hrankdesc : ∀ d ∈ (env e.path).deps, rank d < rank e.path)
    (g : GoodState env rank roots (e :: rest) visited jobs) :
    GoodState env rank roots (expandPush env wfM e visited rest) visited jobs := by
  have hreach_e : Reach env roots e.path :=
    g.reach_stack e.path (by rw [pathsOf_cons]; exact List.mem_cons_self _ _)
  have hmemD : ∀ f ∈ ((env e.path).deps.filter
      (fun d => decide (¬ d ∈ visited))).reverse.map (mkEntry env none),
      f.expanded = false ∧ ∃ d ∈ (env e.path).deps, f.path = d := by
    intro f hfd
    rcases List.mem_map.mp hfd with ⟨d, hd, rfl⟩
    refine ⟨rfl, d, ?_, rfl⟩
    exact List.mem_of_mem_filter (List.mem_reverse.mp hd)
  refine ⟨g.nodup, g.vis_eq, ?_, g.order_ok, ?_, g.reach_vis, g.dep_closed, ?_, ?_, ?_⟩
  · -- StackRank
    intro a f b hsplit hf x hx
    rcases cons_append_split hsplit with ⟨b₁, hD, _⟩ | ⟨ha, hfx, _⟩ | ⟨a₂, ha, hrest⟩
    · have : f ∈ ((env e.path).deps.filter
          (fun d => decide (¬ d ∈ visited))).reverse.map (mkEntry env none) := by
        rw [hD]
        exact List.mem_append.mpr (Or.inr (List.mem_cons_self f b₁))
      rw [(hmemD f this).1] at hf
      exact absurd hf (by decide)
    · subst hfx
      rw [ha] at hx
      rw [show ({ resolveMachine env wfM e with expanded := true } : AsmEntry).path =
        (resolveMachine env wfM e).path from rfl, resolveMachine_path]
      rcases (hmemD x hx) with ⟨_, d, hd, hxp⟩
      rw [hxp]
      exact hrankdesc d hd
    · have hold := g.rank_ok (e :: a₂) f b (by rw [hrest]; rfl) hf
      have he_lt : rank e.path < rank f.path := hold e (List.mem_cons_self e a₂)
      rw [ha] at hx
      rcases List.mem_append.mp hx with hx | hx
      · rcases (hmemD x hx) with ⟨_, d, hd, hxp⟩
        rw [hxp]
        exact lt_trans (hrankdesc d hd) he_lt
      · rcases List.mem_cons.mp hx with rfl | hx
        · rw [show ({ resolveMachine env wfM e with expanded := true } : AsmEntry).path =
            (resolveMachine env wfM e).path from rfl, resolveMachine_path]
          exact he_lt
        · exact hold x (List.mem_cons_of_mem _ hx)
  · -- reach_stack
    intro p hp
    rw [expandPush, pathsOf_append, pathsOf_cons] at hp
    rcases List.mem_append.mp hp with hp | hp
    · rcases mem_pathsOf.mp hp with ⟨f, hfd, rfl⟩
      rcases (hmemD f hfd) with ⟨_, d, hd, hxp⟩
      rw [hxp]
      exact Reach.dep e.path d hreach_e hterm hd
    · rcases List.mem_cons.mp hp with rfl | hp
      · rw [show ({ resolveMachine env wfM e with expanded := true } : AsmEntry).path =
          (resolveMachine env wfM e).path from rfl, resolveMachine_path]
        exact hreach_e
      · exact g.reach_stack p (by rw [pathsOf_cons]; exact List.mem_cons_of_mem _ hp)
  · -- complete
    intro p hp
    refine reach_mono_base env ?_ p (g.complete p hp)
    intro x hx
    rcases List.mem_append.mp hx with hx | hx
    · exact List.mem_append.mpr (Or.inl hx)
    · rw [pathsOf_cons] at hx
      refine List.mem_append.mpr (Or.inr ?_)
      rw [expandPush, pathsOf_append, pathsOf_cons]
      rcases List.mem_cons.mp hx with rfl | hx
      · refine List.mem_append.mpr (Or.inr ?_)
        rw [show ({ resolveMachine env wfM e with expanded := true } : AsmEntry).path =
          (resolveMachine env wfM e).path from rfl, resolveMachine_path]
        exact List.mem_cons_self _ _
      · exact List.mem_append.mpr (Or.inr (List.mem_cons_of_mem _ hx))
  · -- StackDeps
    intro a f b hsplit hf d hd
    rcases cons_append_split hsplit with ⟨b₁, hD, _⟩ | ⟨ha, hfx, _⟩ | ⟨a₂, ha, hrest⟩
    · have : f ∈ ((env e.path).deps.filter
          (fun d => decide (¬ d ∈ visited))).reverse.map (mkEntry env none) := by
        rw [hD]
        exact List.mem_append.mpr (Or.inr (List.mem_cons_self f b₁))
      rw [(hmemD f this).1] at hf
      exact absurd hf (by decide)
    · subst hfx
      have hd' : d ∈ (env e.path).deps := by
        rw [show ({ resolveMachine env wfM e with expanded := true } : AsmEntry).path =
          (resolveMachine env wfM e).path from rfl, resolveMachine_path] at hd
        exact hd
      by_cases hdv : d ∈ visited
      · exact Or.inl hdv
      · refine Or.inr ?_
        rw [ha]
        refine mem_pathsOf.mpr ⟨mkEntry env none d, ?_, rfl⟩
        exact List.mem_map.mpr ⟨d, List.mem_reverse.mpr
          (List.mem_filter.mpr ⟨hd', by simpa using hdv⟩), rfl⟩
    · rcases g.stack_deps (e :: a₂) f b (by rw [hrest]; rfl) hf d hd with h | h
      · exact Or.inl h
      · rw [pathsOf_cons] at h
        rw [ha, pathsOf_append, pathsOf_cons]
        rcases List.mem_cons.mp h with rfl | h
        · refine Or.inr (List.mem_append.mpr (Or.inr ?_))
          rw [show ({ resolveMachine env wfM e with expanded := true } : AsmEntry).path =
            (resolveMachine env wfM e).path from rfl, resolveMachine_path]
          exact List.mem_cons_self _ _
        · exact Or.inr (List.mem_append.mpr (Or.inr (List.mem_cons_of_mem _ h)))
  · -- no_expanded_visited
    intro a f b hsplit hf
    rcases cons_append_split hsplit with ⟨b₁, hD, _⟩ | ⟨_, hfx, _⟩ | ⟨a₂, _, hrest⟩
    · have : f ∈ ((env e.path).deps.filter
          (fun d => decide (¬ d ∈ visited))).reverse.map (mkEntry env none) := by
        rw [hD]
        exact List.mem_append.mpr (Or.inr (List.mem_cons_self f b₁))
      rw [(hmemD f this).1] at hf
      exact absurd hf (by decide)
    · subst hfx
      rw [show ({ resolveMachine env wfM e with expanded := true } : AsmEntry).path =
        (resolveMachine env wfM e).path from rfl, resolveMachine_path]
      exact hvis
    · exact g.no_expanded_visited (e :: a₂) f b (by rw [hrest]; rfl) hf

/-- Popping an unexpanded entry leaves the measure unchanged. -/
theorem asmMeasure_skip (U : Finset String) {e : AsmEntry} (hexp : e.expanded = false)
    (rest : List AsmEntry) (visited : List String) :
    asmMeasure U (e :: rest) visited = asmMeasure U rest visited := by
  rw [asmMeasure, asmMeasure, opensOf_cons_of_not_expanded hexp]

/-- Finalizing a fresh unexpanded entry strictly decreases the measure. -/
theorem asmMeasure_append_unexpanded (U : Finset String) {e : AsmEntry}
    {rest : List AsmEntry} {visited : List String}
    (hexp : e.expanded = false) (hU : e.path ∈ U) (hvis : e.path ∉ visited)
    (hopen : e.path ∉ opensOf rest) :
    asmMeasure U rest (e.path :: visited) < asmMeasure U (e :: rest) visited := by
  rw [asmMeasure, asmMeasure, opensOf_cons_of_not_expanded hexp]
  apply Finset.card_lt_card
  have hsub : (U.filter fun p => p ∉ (e.path :: visited) ∧ p ∉ opensOf rest) ⊆
      U.filter fun p => p ∉ visited ∧ p ∉ opensOf rest := by
    intro p hp
    rw [Finset.mem_filter] at hp ⊢
    exact ⟨hp.1, fun hv => hp.2.1 (List.mem_cons_of_mem _ hv), hp.2.2⟩
  refine (Finset.ssubset_iff_of_subset hsub).mpr ⟨e.path, ?_, ?_⟩
  · rw [Finset.mem_filter]
    exact ⟨hU, hvis, hopen⟩
  · rw [Finset.mem_filter]
    rintro ⟨_, hne, _⟩
    exact hne (List.mem_cons_self _ _)

/-- Finalizing an expanded entry leaves the measure unchanged (its path
moves from the open set to the visited set). -/
theorem asmMeasure_append_expanded (U : Finset String) {e : AsmEntry}
    {rest : List AsmEntry} {visited : List String}
    (hexp : e.expanded = true) (hvis : e.path ∉ visited)
    (hopen : e.path ∉ opensOf rest) :
    asmMeasure U rest (e.path :: visited) = asmMeasure U (e :: rest) visited := by
  rw [asmMeasure, asmMeasure, opensOf_cons_of_expanded hexp]
  congr 1
  apply Finset.filter_congr
  intro p _
  by_cases hpe : p = e.path
  · subst hpe
    constructor
    · rintro ⟨hv, _⟩; exact absurd (List.mem_cons_self _ _) hv
    · rintro ⟨_, ho⟩; exact absurd (List.mem_cons_self _ _) ho
  · constructor
    · rintro ⟨hv, ho⟩
      refine ⟨fun hz => hv (List.mem_cons_of_mem _ hz), fun hz => ?_⟩
      rcases List.mem_cons.mp hz with h | h
      · exact absurd h hpe
      · exact ho h
    · rintro ⟨hv, ho⟩
      refine ⟨fun hz => ?_, fun hz => ho (List.mem_cons_of_mem _ hz)⟩
      rcases List.mem_cons.mp hz with h | h
      · exact absurd h hpe
      · exact hv h

/-- Expanding a fresh unexpanded entry strictly decreases the measure (its
path becomes open). -/
theorem asmMeasure_expand (U : Finset String) {env : String → JobInfo}
    {wfM : Option String} {e : AsmEntry} {rest : List AsmEntry} {visited : List String}
    (hexp : e.expanded = false) (hU : e.path ∈ U) (hvis : e.path ∉ visited)
    (hopen : e.path ∉ opensOf rest) :
    asmMeasure U (expandPush env wfM e visited rest) visited <
      asmMeasure U (e :: rest) visited := by
  rw [asmMeasure, asmMeasure, opensOf_cons_of_not_expanded hexp, opensOf_expandPush]
  apply Finset.card_lt_card
  have hsub : (U.filter fun p => p ∉ visited ∧ p ∉ e.path :: opensOf rest) ⊆
      U.filter fun p => p ∉ visited ∧ p ∉ opensOf rest := by
    intro p hp
    rw [Finset.mem_filter] at hp ⊢
    exact ⟨hp.1, hp.2.1, fun hz => hp.2.2 (List.mem_cons_of_mem _ hz)⟩
  refine (Finset.ssubset_iff_of_subset hsub).mpr ⟨e.path, ?_, ?_⟩
  · rw [Finset.mem_filter]
    exact ⟨hU, hvis, hopen⟩
  · rw [Finset.mem_filter]
    rintro ⟨_, _, hno⟩
    exact hno (List.mem_cons_self _ _)

/-- The main run lemma: from any invariant-satisfying state, with
resolvable machines, a dependency-closed finite universe and a rank
function witnessing acyclicity, the loop terminates (some fuel suffices)
in a state that still satisfies the invariant with an empty stack. -/
theorem asmRun (env : String → JobInfo) (rank : String → Nat) (wfM : Option String)
    (roots : List String) (U : Finset String)
    (hUroot : ∀ p ∈ roots, p ∈ U)
    (hUclosed : ∀ p ∈ U, ¬ (env p).status ∈ assemblyTerminal →
      ∀ d ∈ (env p).deps, d ∈ U)
    (hAcyclic : ∀ p ∈ U, ¬ (env p).status ∈ assemblyTerminal →
      ∀ d ∈ (env p).deps, rank d < rank p)
    (hres : ∀ p ∈ U, ¬ (mkEntry env wfM p).machine = none) :
    ∀ (n l : Nat) (stack : List AsmEntry) (visited : List String) (jobs : List AsmEntry),
      GoodState env rank roots stack visited jobs →
      asmMeasure U stack visited < n →
      stack.length < l →
      ∃ fuel out, asmLoop env wfM fuel stack visited jobs = some out ∧
        ∃ vis', GoodState env rank roots [] vis' out := by
  intro n
  induction n with
  | zero =>
    intro l stack visited jobs _ hμ _
    exact absurd hμ (Nat.not_lt_zero _)
  | succ n ihn =>
    intro l
    induction l with
    | zero =>
      intro stack visited jobs _ _ hl
      exact absurd hl (Nat.not_lt_zero _)
    | succ l ihl =>
      intro stack visited jobs g hμ hl
      cases stack with
      | nil => exact ⟨0, jobs, rfl, visited, g⟩
      | cons e rest =>
        have hlrest : rest.length < l := Nat.lt_of_succ_lt_succ (by simpa using hl)
        by_cases hskip : e.path ∈ visited ∧ e.expanded = false
        · have g' := good_skip hskip.1 g
          obtain ⟨fuel, out, heq, vis', gout⟩ := ihl rest visited jobs g'
            (by rw [← asmMeasure_skip U hskip.2 rest visited]; exact hμ) hlrest
          exact ⟨fuel + 1, out, by rw [asmLoop, if_pos hskip]; exact heq, vis', gout⟩
        · have hU_e : e.path ∈ U := reach_subset_univ env hUroot hUclosed e.path
            (g.reach_stack e.path (by rw [pathsOf_cons]; exact List.mem_cons_self _ _))
          have hm : ¬ (resolveMachine env wfM e).machine = none :=
            resolveMachine_ne_none hres hU_e
          have hvis : e.path ∉ visited := by
            cases he : e.expanded with
            | false => intro hv; exact hskip ⟨hv, he⟩
            | true => exact g.no_expanded_visited [] e rest rfl he
          have hopen : e.path ∉ opensOf rest := top_path_not_in_opens g.rank_ok
          by_cases hterm : (env e.path).status ∈ assemblyTerminal
          · have g' := good_append (finalizeTerminal_path env wfM e) hvis g
              (fun hnt => absurd hterm hnt)
            cases he : e.expanded with
            | false =>
              have hlt := asmMeasure_append_unexpanded U he hU_e hvis hopen
              obtain ⟨fuel, out, heq, vis', gout⟩ := ihn (rest.length + 1) rest
                (e.path :: visited) (jobs ++ [finalizeTerminal env wfM e]) g'
                (by omega) (Nat.lt_succ_self _)
              exact ⟨fuel + 1, out,
                by rw [asmLoop, if_neg hskip, if_neg hm, if_pos hterm]; exact heq,
                vis', gout⟩
            | true =>
              have heqμ := asmMeasure_append_expanded U he hvis hopen
              obtain ⟨fuel, out, heq, vis', gout⟩ := ihl rest (e.path :: visited)
                (jobs ++ [finalizeTerminal env wfM e]) g' (by omega) hlrest
              exact ⟨fuel + 1, out,
                by rw [asmLoop, if_neg hskip, if_neg hm, if_pos hterm]; exact heq,
                vis', gout⟩
          · cases he : e.expanded with
            | true =>
              have horder : ∀ d ∈ (env e.path).deps, d ∈ pathsOf jobs := by
                intro d hd
                rcases g.stack_deps [] e rest rfl he d hd with h | h
                · rw [g.vis_eq] at h
                  exact List.mem_reverse.mp h
                · exact absurd h (List.not_mem_nil d)
              have g' := good_append (resolveMachine_path env wfM e) hvis g
                (fun _ => horder)
              have heqμ := asmMeasure_append_expanded U he hvis hopen
              obtain ⟨fuel, out, heq, vis', gout⟩ := ihl rest (e.path :: visited)
                (jobs ++ [resolveMachine env wfM e]) g' (by omega) hlrest
              refine ⟨fuel + 1, out, ?_, vis', gout⟩
              rw [asmLoop, if_neg hskip, if_neg hm, if_neg hterm, if_pos he]
              exact heq
            | false =>
              have hrankdesc : ∀ d ∈ (env e.path).deps, rank d < rank e.path :=
                hAcyclic e.path hU_e hterm
              have g' := @good_expand env rank roots wfM e rest visited jobs
                hvis hterm hrankdesc g
              have hlt := @asmMeasure_expand U env wfM e rest visited he hU_e hvis hopen
              obtain ⟨fuel, out, heq, vis', gout⟩ := ihn
                ((expandPush env wfM e visited rest).length + 1)
                (expandPush env wfM e visited rest) visited jobs g'
                (by omega) (Nat.lt_succ_self _)
              refine ⟨fuel + 1, out, ?_, vis', gout⟩
              rw [asmLoop, if_neg hskip, if_neg hm, if_neg hterm,
                if_neg (by rw [he]; exact Bool.false_ne_true)]
              exact heq

/-- C2: for every set of root jobs whose dependency graph is acyclic
(witnessed by a rank function on a finite dependency-closed universe) and
whose machine identities are all resolvable, the stack-based assembly
terminates (some fuel suffices and the loop returns `some`), every
traversal-reachable job appears exactly once in the output (the output
paths are exactly the reachable paths, without duplicates), and every job
whose status is not terminal for assembly appears strictly after all of its
non-terminal dependencies. -/
theorem c2_dag_assembly (env : String → JobInfo) (wfM : Option String)
    (rootEntries : List AsmEntry) (rank : String → Nat) (U : Finset String)
    (hroots_unexp : ∀ e ∈ rootEntries, e.expanded = false)
    (hUroot : ∀ e ∈ rootEntries, e.path ∈ U)
    (hUclosed : ∀ p ∈ U, ¬ (env p).status ∈ assemblyTerminal →
      ∀ d ∈ (env p).deps, d ∈ U)
    (hAcyclic : ∀ p ∈ U, ¬ (env p).status ∈ assemblyTerminal →
      ∀ d ∈ (env p).deps, rank d < rank p)
    (hres : ∀ p ∈ U, ¬ (mkEntry env wfM p).machine = none) :
    ∃ fuel out, asmLoop env wfM fuel rootEntries [] [] = some out ∧
      (pathsOf out).Nodup ∧
      (∀ p, p ∈ pathsOf out ↔ Reach env (pathsOf rootEntries) p) ∧
      ∀ a e b, out = a ++ e :: b → ¬ (env e.path).status ∈ assemblyTerminal →
        ∀ d ∈ (env e.path).deps, ¬ (env d).status ∈ assemblyTerminal →
          d ∈ pathsOf a := by
  have g0 : GoodState env rank (pathsOf rootEntries) rootEntries [] [] := by
    refine ⟨List.nodup_nil, rfl, ?_, ?_, ?_, ?_, ?_, ?_, ?_, ?_⟩
    · intro a e b hsplit he f hf
      have hmem : e ∈ rootEntries := by
        rw [hsplit]
        exact List.mem_append.mpr (Or.inr (List.mem_cons_self e b))
      rw [hroots_unexp e hmem] at he
      exact absurd he (by decide)
    · intro a e b hsplit
      exact absurd hsplit.symm (List.append_ne_nil_of_right_ne_nil a (by simp))
    · intro p hp
      exact Reach.root p hp
    · intro p hp
      exact absurd hp (List.not_mem_nil p)
    · intro p hp
      exact absurd hp (List.not_mem_nil p)
    · intro p hp
      exact hp
    · intro a e b hsplit he d _
      have hmem : e ∈ rootEntries := by
        rw [hsplit]
        exact List.mem_append.mpr (Or.inr (List.mem_cons_self e b))
      rw [hroots_unexp e hmem] at he
      exact absurd he (by decide)
    · intro a e b _ _
      exact List.not_mem_nil _
  have hUroot' : ∀ p ∈ pathsOf rootEntries, p ∈ U := by
    intro p hp
    rcases mem_pathsOf.mp hp with ⟨e, he, rfl⟩
    exact hUroot e he
  obtain ⟨fuel, out, heq, vis', gout⟩ := asmRun env rank wfM (pathsOf rootEntries) U
    hUroot' hUclosed hAcyclic hres
    (asmMeasure U rootEntries [] + 1) (rootEntries.length + 1)
    rootEntries [] [] g0 (Nat.lt_succ_self _) (Nat.lt_succ_self _)
  refine ⟨fuel, out, heq, ?_, ?_, ?_⟩
  · have hnd := gout.nodup
    rw [gout.vis_eq] at hnd
    exact List.nodup_reverse.mp hnd
  · intro p
    constructor
    · intro hp
      exact gout.reach_vis p (by rw [gout.vis_eq]; exact List.mem_reverse.mpr hp)
    · intro hp
      have h1 := gout.complete p hp
      rw [show pathsOf ([] : List AsmEntry) = [] from rfl, List.append_nil] at h1
      have h2 := reach_collapse env gout.dep_closed p h1
      rw [gout.vis_eq] at h2
      exact List.mem_reverse.mp h2
  · intro a e b hsplit hterm d hd _
    exact gout.order_ok a e b hsplit hterm d hd

/-- Witness for C2: a two-job chain `T → B`, both raw, both resolvable. -/
theorem c2_dag_assembly_witness :
    ∃ fuel out,
      asmLoop demoEnvC2 (some "m0") fuel [⟨"T", some "m", false, false⟩] [] [] =
        some out ∧
      (pathsOf out).Nodup ∧
      (∀ p, p ∈ pathsOf out ↔
        Reach demoEnvC2 (pathsOf [⟨"T", some "m", false, false⟩]) p) ∧
      ∀ a e b, out = a ++ e :: b →
        ¬ (demoEnvC2 e.path).status ∈ assemblyTerminal →
        ∀ d ∈ (demoEnvC2 e.path).deps,
          ¬ (demoEnvC2 d).status ∈ assemblyTerminal → d ∈ pathsOf a :=
  c2_dag_assembly demoEnvC2 (some "m0") [⟨"T", some "m", false, false⟩]
    (fun p => if p = "T" then 1 else 0) {"T", "B"}
    (by decide) (by decide) (by decide) (by decide) (by decide)

/-- Witness for C8: with no workflow machine id and no stored machine id,
the popped job is dropped without any other effect. -/
theorem c8_unresolvable_dropped_witness :
    (remade demoEnvC8 none ⟨"X", none, false, false⟩).machine = none ∧
    asmLoop demoEnvC8 none 3 [⟨"X", none, false, false⟩] [] [] =
      asmLoop demoEnvC8 none 2 [] [] [] :=
  ⟨by decide,
   c8_unresolvable_dropped demoEnvC8 none 2 ⟨"X", none, false, false⟩ [] [] []
     (by decide) (by decide) (by decide)⟩

/-! ### C5: the substitution pipeline — string lemmas -/

/-- `listPre` is list prefixing. -/
theorem listPre_iff : ∀ (p s : List Char), listPre p s = true ↔ ∃ t, s = p ++ t := by
  intro p
  induction p with
  | nil =>
    intro s
    simp [listPre]
  | cons a as ih =>
    intro s
    cases s with
    | nil =>
      simp [listPre]
    | cons b bs =>
      rw [listPre, Bool.and_eq_true]
      constructor
      · rintro ⟨hab, hpre⟩
        obtain ⟨t, rfl⟩ := (ih bs).mp hpre
        exact ⟨t, by rw [eq_of_beq hab]; rfl⟩
      · rintro ⟨t, ht⟩
        have := List.cons_eq_cons.mp ht
        exact ⟨by rw [this.1]; exact beq_self_eq_true a, (ih bs).mpr ⟨t, this.2⟩⟩

/-- A list is a prefix of itself followed by anything. -/
theorem listPre_append_self (p t : List Char) : listPre p (p ++ t) = true :=
  (listPre_iff p (p ++ t)).mpr ⟨t, rfl⟩

/-- `hasSub` is substring occurrence. -/
theorem hasSub_iff (pat : List Char) : ∀ s, hasSub pat s = true ↔ occursIn pat s := by
  intro s
  induction s with
  | nil =>
    rw [hasSub]
    constructor
    · intro h
      refine ⟨[], [], ?_⟩
      have : pat = [] := by
        cases pat with
        | nil => rfl
        | cons c cs => exact absurd h (by simp [List.isEmpty])
      rw [this]
      rfl
    · rintro ⟨a, b, hab⟩
      have ha : a = [] ∧ pat ++ b = [] := by
        constructor
        · cases a with
          | nil => rfl
          | cons y ys => exact absurd hab.symm (by simp)
        · cases a with
          | nil => exact hab.symm
          | cons y ys => exact absurd hab.symm (by simp)
      have hp : pat = [] := by
        cases pat with
        | nil => rfl
        | cons y ys => exact absurd ha.2 (by simp)
      rw [hp]
      rfl
  | cons c cs ih =>
    rw [hasSub, Bool.or_eq_true, ih]
    constructor
    · rintro (h | ⟨a, b, hab⟩)
      · obtain ⟨t, ht⟩ := (listPre_iff _ _).mp h
        exact ⟨[], t, ht⟩
      · exact ⟨c :: a, b, by rw [hab]; rfl⟩
    · rintro ⟨a, b, hab⟩
      cases a with
      | nil =>
        left
        rw [List.nil_append] at hab
        exact (listPre_iff _ _).mpr ⟨b, hab⟩
      | cons y ys =>
        right
        have := List.cons_eq_cons.mp hab
        exact ⟨ys, b, this.2⟩

/-- `replaceAllF` on the empty list. -/
theorem replaceAllF_nil (pat val : List Char) (fuel : Nat) :
    replaceAllF pat val fuel [] = [] := by
  cases fuel <;> rfl

/-- Characters of a replacement result come from the input or the
replacement value. -/
theorem mem_replaceAllF (pat val : List Char) :
    ∀ (fuel : Nat) (s : List Char) (ch : Char),
      ch ∈ replaceAllF pat val fuel s → ch ∈ s ∨ ch ∈ val := by
  intro fuel
  induction fuel with
  | zero =>
    intro s ch h
    cases s with
    | nil => exact absurd h (List.not_mem_nil ch)
    | cons c cs => exact Or.inl h
  | succ fuel ih =>
    intro s ch h
    cases s with
    | nil => exact absurd h (List.not_mem_nil ch)
    | cons c cs =>
      rw [replaceAllF] at h
      by_cases hg : listPre pat (c :: cs) = true
      · rw [if_pos hg] at h
        rcases List.mem_append.mp h with h | h
        · exact Or.inr h
        · rcases ih _ ch h with h | h
          · exact Or.inl (List.mem_of_mem_drop h)
          · exact Or.inr h
      · rw [if_neg hg] at h
        rcases List.mem_cons.mp h with rfl | h
        · exact Or.inl (List.mem_cons_self _ _)
        · rcases ih cs ch h with h | h
          · exact Or.inl (List.mem_cons_of_mem _ h)
          · exact Or.inr h

/-- A pattern whose head differs from the scanned character is no prefix. -/
theorem listPre_cons_false {hd c : Char} (pt z : List Char) (h : hd ≠ c) :
    listPre (hd :: pt) (c :: z) = false := by
  rw [listPre]
  have : (hd == c) = false := by
    rw [beq_eq_false_iff_ne]
    exact h
  rw [this, Bool.false_and]

/-- The scan skips over a region free of the pattern's head character. -/
theorem replaceAllF_skip {pat val : List Char} {hd : Char} {pt : List Char}
    (hpat : pat = hd :: pt) :
    ∀ (q : List Char), hd ∉ q → ∀ (fuel : Nat) (x : List Char), q.length ≤ fuel →
      replaceAllF pat val fuel (q ++ x) = q ++ replaceAllF pat val (fuel - q.length) x := by
  intro q
  induction q with
  | nil =>
    intro _ fuel x _
    rw [List.nil_append, List.length_nil, Nat.sub_zero, List.nil_append]
  | cons c q' ih =>
    intro hq fuel x hlen
    cases fuel with
    | zero => exact absurd hlen (by simp)
    | succ f =>
      have hne : hd ≠ c := fun hEq => hq (hEq ▸ List.mem_cons_self c q')
      rw [List.cons_append, replaceAllF, hpat, listPre_cons_false _ _ hne]
      rw [if_neg (by simp)]
      rw [← hpat, ih (fun hm => hq (List.mem_cons_of_mem _ hm)) f x
        (Nat.le_of_succ_le_succ hlen)]
      rw [List.length_cons, Nat.succ_sub_succ]
      rfl

/-- Splitting a cons along an append-with-cons decomposition. -/
theorem cons_eq_append_cons {ch x : Char} {R a b : List Char}
    (h : ch :: R = a ++ x :: b) :
    (a = [] ∧ ch = x ∧ R = b) ∨ ∃ a₂, a = ch :: a₂ ∧ R = a₂ ++ x :: b := by
  cases a with
  | nil =>
    left
    rw [List.nil_append] at h
    exact ⟨rfl, (List.cons_eq_cons.mp h).1, (List.cons_eq_cons.mp h).2⟩
  | cons y a₂ =>
    right
    rw [List.cons_append] at h
    have := List.cons_eq_cons.mp h
    exact ⟨a₂, by rw [this.1], this.2⟩

/-- An occurrence of a character beyond a region not containing it lies in
the remainder. -/
theorem not_mem_append_split {x : Char} {v : List Char} (hx : x ∉ v) :
    ∀ {R a b : List Char}, v ++ R = a ++ x :: b →
      ∃ a₂, a = v ++ a₂ ∧ R = a₂ ++ x :: b := by
  induction v with
  | nil =>
    intro R a b h
    exact ⟨a, by rw [List.nil_append], by rw [List.nil_append] at h; exact h⟩
  | cons c v' ih =>
    intro R a b h
    rw [List.cons_append] at h
    rcases cons_eq_append_cons h with ⟨ha, hc, hR⟩ | ⟨a₂, ha, hR⟩
    · exfalso
      apply hx
      rw [hc]
      exact List.mem_cons_self _ _
    · obtain ⟨a₃, ha₂, hR'⟩ := ih (fun hm => hx (List.mem_cons_of_mem _ hm)) hR
      exact ⟨a₃, by rw [ha, ha₂]; rfl, hR'⟩

/-- `Inv` is monotone in the name list. -/
theorem inv_mono {N₁ N₂ : List (List Char)} {c : List Char}
    (hsub : ∀ n ∈ N₁, n ∈ N₂) (h : Inv N₁ c) : Inv N₂ c := by
  intro a b hab
  obtain ⟨n, hn, hpre⟩ := h a b hab
  exact ⟨n, hsub n hn, hpre⟩

/-- `Inv` descends to the tail. -/
theorem inv_tail {N : List (List Char)} {ch : Char} {cs : List Char}
    (h : Inv N (ch :: cs)) : Inv N cs := by
  intro a b hab
  exact h (ch :: a) b (by rw [hab]; rfl)

/-- `Inv` descends past any prefix. -/
theorem inv_drop_prefix {N : List (List Char)} {u rest : List Char}
    (h : Inv N (u ++ rest)) : Inv N rest := by
  intro a b hab
  exact h (u ++ a) b (by rw [hab, List.append_assoc])

/-- Prepending a non-dollar character preserves `Inv`. -/
theorem inv_cons_ne {N : List (List Char)} {ch : Char} {R : List Char}
    (hch : ch ≠ '$') (h : Inv N R) : Inv N (ch :: R) := by
  intro a b hab
  rcases cons_eq_append_cons hab with ⟨_, hc, _⟩ | ⟨a₂, _, hR⟩
  · exact absurd hc hch
  · exact h a₂ b hR

/-- Prepending a dollar-free block preserves `Inv`. -/
theorem inv_append_left {N : List (List Char)} {v R : List Char}
    (hv : '$' ∉ v) (h : Inv N R) : Inv N (v ++ R) := by
  intro a b hab
  obtain ⟨a₂, _, hR⟩ := not_mem_append_split hv hab
  exact h a₂ b hR

/-- A well-formed token of a listed dollar-free name, followed by an
invariant remainder, is invariant. -/
theorem inv_dollar_head {N : List (List Char)} {n : List Char} {R : List Char}
    (hq : '$' ∉ ('\x7b' :: (n ++ ['\x7d']))) (hn : n ∈ N) (h : Inv N R) :
    Inv N ('$' :: ('\x7b' :: (n ++ ['\x7d'])) ++ R) := by
  intro a b hab
  rcases cons_eq_append_cons hab with ⟨_, _, hR⟩ | ⟨a₂, _, hR⟩
  · refine ⟨n, hn, ?_⟩
    rw [← hR]
    exact listPre_append_self _ _
  · obtain ⟨a₃, _, hR'⟩ := not_mem_append_split hq hR
    exact h a₃ b hR'

/-- The key substitution step: replacing every occurrence of a declared
token `${p}` with a dollar-free value turns an invariant command into one
invariant for the remaining names, erasing `p`. -/
theorem inv_replace (p val : List Char) (hval : '$' ∉ val) (N : List (List Char))
    (hN : ∀ n ∈ N, '$' ∉ n) :
    ∀ (fuel : Nat) (s : List Char), s.length ≤ fuel → Inv N s →
      Inv (N.filter (fun n => decide (¬ n = p))) (replaceAllF (tokOf p) val fuel s) := by
  intro fuel
  induction fuel using Nat.strong_induction_on with
  | _ fuel ih =>
    intro s hlen hInv
    cases s with
    | nil =>
      rw [replaceAllF_nil]
      intro a b hab
      exact absurd hab.symm (List.append_ne_nil_of_right_ne_nil a (by simp))
    | cons c cs =>
      cases fuel with
      | zero => exact absurd hlen (by simp)
      | succ f =>
        by_cases hguard : listPre (tokOf p) (c :: cs) = true
        · rw [replaceAllF, if_pos hguard]
          obtain ⟨t, ht⟩ := (listPre_iff _ _).mp hguard
          have hdrop : List.drop (tokOf p).length (c :: cs) = t := by
            rw [ht, List.drop_left]
          rw [hdrop]
          have hInvt : Inv N t := by
            rw [ht] at hInv
            exact inv_drop_prefix hInv
          have hlent : t.length ≤ f := by
            have hlens := congrArg List.length ht
            rw [List.length_cons, List.length_append] at hlens
            rw [List.length_cons] at hlen
            have htok : 1 ≤ (tokOf p).length := by
              rw [tokOf]
              simp
            omega
          exact inv_append_left hval (ih f (Nat.lt_succ_self f) t hlent hInvt)
        · rw [replaceAllF, if_neg hguard]
          by_cases hc : c = '$'
          · subst hc
            obtain ⟨n, hnN, hpre⟩ := hInv [] cs rfl
            obtain ⟨rest, hrest⟩ := (listPre_iff _ _).mp hpre
            have hne : ¬ n = p := by
              intro hEq
              apply hguard
              subst hEq
              rw [hrest]
              exact listPre_append_self (tokOf n) rest
            have hq : '$' ∉ ('\x7b' :: (n ++ ['\x7d'])) := by
              intro hm
              rcases List.mem_cons.mp hm with h | h
              · exact absurd h (by decide)
              · rcases List.mem_append.mp h with h | h
                · exact hN n hnN h
                · rcases List.mem_cons.mp h with h | h
                  · exact absurd h (by decide)
                  · exact absurd h (List.not_mem_nil _)
            have hlenq : ('\x7b' :: (n ++ ['\x7d'])).length ≤ f := by
              have hlens := congrArg List.length hrest
              rw [List.length_append] at hlens
              have hcs : cs.length ≤ f := Nat.le_of_succ_le_succ hlen
              omega
            rw [hrest, replaceAllF_skip
              (show tokOf p = '$' :: ('\x7b' :: (p ++ ['\x7d'])) from rfl)
              ('\x7b' :: (n ++ ['\x7d'])) hq f rest hlenq]
            have hInvrest : Inv N rest := by
              rw [hrest] at hInv
              exact inv_drop_prefix (inv_tail hInv)
            have hlenrest : rest.length ≤ f - ('\x7b' :: (n ++ ['\x7d'])).length := by
              have hlens := congrArg List.length hrest
              rw [List.length_append] at hlens
              have hcs : cs.length ≤ f := Nat.le_of_succ_le_succ hlen
              omega
            have hrec := ih (f - ('\x7b' :: (n ++ ['\x7d'])).length)
              (Nat.lt_succ_of_le (Nat.sub_le _ _)) rest hlenrest hInvrest
            refine inv_dollar_head hq ?_ hrec
            rw [List.mem_filter]
            exact ⟨hnN, by simp [hne]⟩
          · exact inv_cons_ne hc
              (ih f (Nat.lt_succ_self f) cs (Nat.le_of_succ_le_succ hlen) (inv_tail hInv))

/-- Folding a list of dollar-free substitutions erases every substituted
name from the invariant. -/
theorem inv_applySubs :
    ∀ (subs : List (List Char × List Char)) (N : List (List Char)) (c : List Char),
      (∀ kv ∈ subs, '$' ∉ kv.2) → (∀ n ∈ N, '$' ∉ n) → Inv N c →
      Inv (N.filter (fun n => decide (¬ n ∈ subs.map Prod.fst))) (applySubs subs c) := by
  intro subs
  induction subs with
  | nil =>
    intro N c _ _ hInv
    have hfil : N.filter
        (fun n => decide (¬ n ∈ ([] : List (List Char × List Char)).map Prod.fst)) = N := by
      apply List.filter_eq_self.mpr
      intro a _
      simp
    rw [hfil]
    exact hInv
  | cons kv rest ih =>
    intro N c hvals hN hInv
    have h1 : Inv (N.filter (fun n => decide (¬ n = kv.1)))
        (replaceAll (tokOf kv.1) kv.2 c) :=
      inv_replace kv.1 kv.2 (hvals kv (List.mem_cons_self _ _)) N hN c.length c
        (le_refl _) hInv
    have h2 := ih (N.filter (fun n => decide (¬ n = kv.1)))
      (replaceAll (tokOf kv.1) kv.2 c)
      (fun kv' h => hvals kv' (List.mem_cons_of_mem _ h))
      (fun n hn => hN n (List.mem_of_mem_filter hn)) h1
    refine inv_mono ?_ h2
    intro n hn
    rw [List.mem_filter] at hn
    have hn1 := List.mem_filter.mp hn.1
    rw [List.mem_filter]
    refine ⟨hn1.1, ?_⟩
    simp only [decide_eq_true_iff] at hn1 hn ⊢
    rw [List.map_cons, List.mem_cons]
    rintro (h | h)
    · exact hn1.2 h
    · exact hn.2 h

/-- An invariant for the empty name list means no dollar sign at all. -/
theorem inv_nil_noDollar {c : List Char} (h : Inv [] c) : '$' ∉ c := by
  intro hm
  obtain ⟨a, b, hab⟩ := List.append_of_mem hm
  obtain ⟨n, hn, _⟩ := h a b hab
  exact absurd hn (List.not_mem_nil n)

/-- Soundness of the executable invariant check. -/
theorem invB_sound (N : List (List Char)) :
    ∀ c, invB N c = true → Inv N c := by
  intro c
  induction c with
  | nil =>
    intro _ a b hab
    exact absurd hab.symm (List.append_ne_nil_of_right_ne_nil a (by simp))
  | cons ch cs ih =>
    intro h a b hab
    rw [invB, Bool.and_eq_true] at h
    rcases cons_eq_append_cons hab with ⟨_, hc, hR⟩ | ⟨a₂, _, hR⟩
    · have h1 := h.1
      rw [hc, if_pos rfl] at h1
      obtain ⟨n, hn, hpre⟩ := List.any_eq_true.mp h1
      exact ⟨n, hn, by rw [← hR]; exact hpre⟩
    · exact ih h.2 a₂ b hR

/-- The keys of the substitution list are exactly the declared names. -/
theorem subsKeys_eq (job : TaskModel) :
    (substitutionList job).map Prod.fst = declaredNames job := by
  rw [substitutionList, declaredNames]
  rw [List.map_append, List.map_append, List.map_map, List.map_map]
  rfl

/-- The compiler's chained substitutions equal one fold over the combined
substitution list. -/
theorem subst_pipeline_eq (job : TaskModel) (c : List Char) :
    substitutePaths job (substituteInputs job (substituteParameters job c)) =
      applySubs (substitutionList job) c := by
  rw [applySubs, substitutionList, List.foldl_append, List.foldl_append]
  rw [substituteParameters, substituteInputs, substitutePaths]
  rw [List.foldl_map, List.foldl_map]
  rfl

/-- Digit characters are never a dollar sign. -/
theorem digitChar_ne_dollar (d : Nat) : Nat.digitChar d ≠ '$' := by
  rcases Nat.lt_or_ge d 16 with hd | hd
  · interval_cases d <;> decide
  · unfold Nat.digitChar
    iterate 16 rw [if_neg (by omega)]
    decide

/-- The digit expansion never contains a dollar sign. -/
theorem toDigitsCore_ne_dollar (b : Nat) :
    ∀ (fuel n : Nat) (acc : List Char), (∀ c ∈ acc, c ≠ '$') →
      ∀ c ∈ Nat.toDigitsCore b fuel n acc, c ≠ '$' := by
  intro fuel
  induction fuel with
  | zero =>
    intro n acc hacc c hc
    exact hacc c hc
  | succ fuel ih =>
    intro n acc hacc c hc
    have hacc' : ∀ c ∈ Nat.digitChar (n % b) :: acc, c ≠ '$' := by
      intro c hc
      rcases List.mem_cons.mp hc with rfl | hc
      · exact digitChar_ne_dollar _
      · exact hacc c hc
    simp only [Nat.toDigitsCore] at hc
    by_cases hz : n / b = 0
    · rw [if_pos hz] at hc
      exact hacc' c hc
    · rw [if_neg hz] at hc
      exact ih (n / b) (Nat.digitChar (n % b) :: acc) hacc' c hc

/-- The decimal representation of a natural number never contains a dollar
sign. -/
theorem noDollar_repr (n : Nat) : '$' ∉ (Nat.repr n).toList := by
  intro hmem
  exact toDigitsCore_ne_dollar 10 (n + 1) n []
    (fun c hc => absurd hc (List.not_mem_nil c)) '$' hmem rfl

/-- Every compiled command arises from some raw command at some index. -/
theorem processIdx_mem (job : TaskModel) :
    ∀ (i : Nat) (cmds : List String) (out : List Char),
      out ∈ processIdx job i cmds →
      ∃ k cmd, cmd ∈ cmds ∧ out = processOne job k cmd := by
  intro i cmds
  induction cmds generalizing i with
  | nil =>
    intro out h
    exact absurd h (List.not_mem_nil _)
  | cons c cs ih =>
    intro out h
    rw [processIdx] at h
    rcases List.mem_cons.mp h with rfl | h
    · exact ⟨i, c, List.mem_cons_self _ _, rfl⟩
    · obtain ⟨k, cmd, hm, he⟩ := ih (i + 1) out h
      exact ⟨k, cmd, List.mem_cons_of_mem _ hm, he⟩

/-- Characters of an occurring pattern occur in the string. -/
theorem occursIn_mem {pat s : List Char} (h : occursIn pat s) :
    ∀ ch ∈ pat, ch ∈ s := by
  obtain ⟨a, b, rfl⟩ := h
  intro ch hch
  exact List.mem_append.mpr (Or.inl (List.mem_append.mpr (Or.inr hch)))

/-- Counterexample to C5 as stated: `cexJob` declares the parameter `data`
whose value `$` contains no `${...}` token of any declared name, yet the
compiled command still contains the token `${data}` — the substitution
re-created it across a replacement boundary. -/
theorem c5_token_reintroduced_counterexample :
    ("data", "$") ∈ cexJob.parameters ∧
    (∀ n ∈ declaredNames cexJob, ¬ occursIn (tokOf n) "$".toList) ∧
    ∃ out ∈ processUserCommandsForReana cexJob, occursIn (tokOf "data".toList) out := by
  refine ⟨by decide, ?_, ?_⟩
  · intro n hn hocc
    have hfalse : hasSub (tokOf n) "$".toList = false := by
      have hall : ∀ m ∈ declaredNames cexJob, hasSub (tokOf m) "$".toList = false := by
        decide
      exact hall n hn
    have htrue := (hasSub_iff (tokOf n) "$".toList).mpr hocc
    rw [htrue] at hfalse
    exact Bool.noConfusion hfalse
  · refine ⟨(processUserCommandsForReana cexJob).headD [], by decide, ?_⟩
    exact (hasSub_iff _ _).mp (by decide)

/-- C5 (amended): after compiling a Task job's command list — substituting
parameters, then input aliases, then the fixed path placeholders — no
`${name}` token remains in any compiled command for any parameter or alias
declared on the job, provided the declared names and all substituted values
are free of the `$` character and every `$` in a raw command begins a
well-formed `${name}` token of a declared name (indeed no `$` remains at
all).  In particular, a Task job with alias `data` mapped to an impression
with short id `abcdef1` compiles `run ${data}/x.bin` to a command
containing `../impabcdef1/x.bin`. -/
theorem c5_substitution_amended (job : TaskModel)
    (hvals : ∀ kv ∈ job.parameters, '$' ∉ kv.2.toList)
    (haliases : ∀ kv ∈ job.aliasToImpression, '$' ∉ kv.2.toList.take 7)
    (hshort : '$' ∉ job.shortUuid.toList)
    (himg : '$' ∉ job.imageShort.toList)
    (hnames : ∀ n ∈ declaredNames job, '$' ∉ n)
    (hcmds : ∀ c ∈ job.rawCommands, Inv (declaredNames job) c.toList) :
    (∀ out ∈ processUserCommandsForReana job, '$' ∉ out) ∧
    (∀ out ∈ processUserCommandsForReana job,
      ∀ k ∈ job.parameters.map (fun kv => kv.1.toList) ++
          job.aliasToImpression.map (fun kv => kv.1.toList),
        ¬ occursIn (tokOf k) out) ∧
    occursIn "../impabcdef1/x.bin".toList
      ((processUserCommandsForReana scenarioJob).headD []) := by
  have hsubvals : ∀ kv ∈ substitutionList job, '$' ∉ kv.2 := by
    intro kv hkv
    rw [substitutionList] at hkv
    rcases List.mem_append.mp hkv with h | h
    · rcases List.mem_append.mp h with h | h
      · rcases List.mem_map.mp h with ⟨kv', hkv', rfl⟩
        exact hvals kv' hkv'
      · rcases List.mem_map.mp h with ⟨kv', hkv', rfl⟩
        intro hm
        rcases List.mem_append.mp hm with hm | hm
        · exact absurd hm (by decide)
        · exact haliases kv' hkv' hm
    · rcases List.mem_cons.mp h with rfl | h
      · exact by decide
      · rcases List.mem_cons.mp h with rfl | h
        · intro hm
          rcases List.mem_append.mp hm with hm | hm
          · exact absurd hm (by decide)
          · exact hshort hm
        · rcases List.mem_cons.mp h with rfl | h
          · intro hm
            rcases List.mem_append.mp hm with hm | hm
            · exact absurd hm (by decide)
            · exact himg hm
          · exact absurd h (List.not_mem_nil _)
  have hmain : ∀ out ∈ processUserCommandsForReana job, '$' ∉ out := by
    intro out hout
    rw [processUserCommandsForReana] at hout
    by_cases hgate : (job.isInput || job.computeBackend == "htcondorcern") = true
    · rw [if_pos hgate] at hout
      exact absurd hout (List.not_mem_nil _)
    · rw [if_neg hgate] at hout
      obtain ⟨k, cmd, hcmd, rfl⟩ := processIdx_mem job 0 job.rawCommands out hout
      rw [processOne]
      unfold escapeQuotes replaceAll
      intro hm
      rcases mem_replaceAllF _ _ _ _ '$' hm with hm | hm
      · rcases List.mem_append.mp hm with hm | hm
        · rcases List.mem_append.mp hm with hm | hm
          · exact absurd hm (by decide)
          · revert hm
            rw [subst_pipeline_eq]
            have h := inv_applySubs (substitutionList job) (declaredNames job)
              cmd.toList hsubvals hnames (hcmds cmd hcmd)
            have hfilter : (declaredNames job).filter
                (fun n => decide (¬ n ∈ (substitutionList job).map Prod.fst)) = [] := by
              rw [subsKeys_eq, List.filter_eq_nil_iff]
              intro a ha
              simp [ha]
            rw [hfilter] at h
            exact inv_nil_noDollar h
        · unfold wrapPost at hm
          rcases List.mem_append.mp hm with hm | hm
          · rcases List.mem_append.mp hm with hm | hm
            · exact absurd hm (by decide)
            · exact noDollar_repr k hm
          · exact absurd hm (by decide)
      · exact absurd hm (by decide)
  refine ⟨hmain, ?_, ?_⟩
  · intro out hout j _ hocc
    exact hmain out hout (occursIn_mem hocc '$' (List.mem_cons_self _ _))
  · exact (hasSub_iff _ _).mp (by decide)

/-- Witness for the amended C5: the spec's scenario job satisfies every
hypothesis, and its compiled command is token-free and references
`../impabcdef1/x.bin`. -/
theorem c5_substitution_amended_witness :
    (∀ out ∈ processUserCommandsForReana scenarioJob, '$' ∉ out) ∧
    (∀ out ∈ processUserCommandsForReana scenarioJob,
      ∀ k ∈ scenarioJob.parameters.map (fun kv => kv.1.toList) ++
          scenarioJob.aliasToImpression.map (fun kv => kv.1.toList),
        ¬ occursIn (tokOf k) out) ∧
    occursIn "../impabcdef1/x.bin".toList
      ((processUserCommandsForReana scenarioJob).headD []) := by
  refine c5_substitution_amended scenarioJob ?_ ?_ ?_ ?_ ?_ ?_
  · intro kv hkv
    exact absurd hkv (List.not_mem_nil kv)
  · intro kv hkv
    have hkv' : kv = ("data", "abcdef1") := by
      rcases List.mem_cons.mp hkv with h | h
      · exact h
      · exact absurd h (List.not_mem_nil _)
    rw [hkv']
    decide
  · decide
  · decide
  · intro n hn
    have hall : ∀ m ∈ declaredNames scenarioJob, '$' ∉ m := by decide
    exact hall n hn
  · intro c hc
    rcases List.mem_cons.mp hc with rfl | hc
    · exact invB_sound _ _ (by decide)
    · exact absurd hc (List.not_mem_nil _)

end Yuki
